import Mathlib

/-!
# morse.c: the adaptive curriculum and scoring engine

A shallow embedding of `src/morse.c` (Cunningham 1978, Wilson 1988).

Conventions of the embedding.

* `unsigned` is a machine word of `w` bits; the source does not fix `w`
  (the program targets a 16-bit DOS compiler), so `w` is a parameter and the
  results are stated for every `w` with `16 ≤ w`.  Unsigned arithmetic is
  `Nat` arithmetic reduced `% 2 ^ w` after every operation.
* `unsigned char` fields are reduced `% 256` when stored.
* Signed `int` values are `Int`; every signed computation modelled below
  stays far inside the 16-bit range on the inputs the theorems cover.
* The global variables (`letter[]`, `num`, `dit`) and the statics of
  `teach` (`column`, `give`) form the record `State`.  Calls of the
  external routines `pc`, `prc` and `beep` are recorded, in order, in the
  write-only log `State.out`.
* An access to `letter[]` outside the table yields `none`.
-/

namespace Morse

/-! ## Constants (`#define`s of the source) -/

/-- Source: `#define NLINE 25`. -/
def NLINE : Nat := 25
/-- Source: `#define BARHT (NLINE-6)`. -/
def BARHT : Nat := NLINE - 6
/-- Source: `#define GOOD 0`. -/
def GOOD : Nat := 0
/-- Source: `#define BAD 255`. -/
def BAD : Nat := 255
/-- Source: `#define BRGRY 176`. -/
def BRGRY : Nat := 176
/-- Source: `#define BRCHR 219`. -/
def BRCHR : Nat := 219
/-- Source: `#define NORM 0x1E00`. -/
def NORM : Nat := 0x1E00
/-- Source: `#define HLGT 0x1F00`. -/
def HLGT : Nat := 0x1F00
/-- Source: `#define GREY 0x1700`. -/
def GREY : Nat := 0x1700
/-- Source: `#define CWIN 0x0700`. -/
def CWIN : Nat := 0x0700
/-- Source: `#define TONE_ON 1162`. -/
def TONE_ON : Nat := 1162
/-- Source: `#define TONE_OFF 0`. -/
def TONE_OFF : Nat := 0
/-- Source: `#define LINLEN 72`. -/
def LINLEN : Nat := 72
/-- Source: `#define DIT(wpm) (1395/(wpm))`. -/
def DIT (wpm : Nat) : Nat := 1395 / wpm

/-! ## Data model -/

/-- Source: `struct lt {char ascii; char morse; unsigned char error;}`. -/
structure Lt where
  ascii : Char
  morse : Nat
  error : Nat
deriving DecidableEq, Repr

/-- Source: the initialiser of `letter[]` (lines 71-82); the patterns are
the octal constants of the source. -/
def letter : List Lt := [
  ⟨'*', 0, GOOD⟩,
  ⟨'Q', 0o33, BAD⟩, ⟨'7', 0o43, BAD⟩, ⟨'Z', 0o23, BAD⟩, ⟨'G', 0o13, BAD⟩,
  ⟨'0', 0o77, BAD⟩, ⟨'9', 0o57, BAD⟩, ⟨'8', 0o47, BAD⟩, ⟨'O', 0o17, BAD⟩,
  ⟨'1', 0o76, BAD⟩, ⟨'J', 0o36, BAD⟩, ⟨'P', 0o26, BAD⟩, ⟨'W', 0o16, BAD⟩,
  ⟨'L', 0o22, BAD⟩, ⟨'R', 0o12, BAD⟩, ⟨'A', 0o06, BAD⟩, ⟨'M', 0o07, BAD⟩,
  ⟨'6', 0o41, BAD⟩, ⟨'B', 0o21, BAD⟩, ⟨'X', 0o31, BAD⟩, ⟨'D', 0o11, BAD⟩,
  ⟨'Y', 0o35, BAD⟩, ⟨'C', 0o25, BAD⟩, ⟨'K', 0o15, BAD⟩, ⟨'N', 0o05, BAD⟩,
  ⟨'2', 0o74, BAD⟩, ⟨'3', 0o70, BAD⟩, ⟨'F', 0o24, BAD⟩, ⟨'U', 0o14, BAD⟩,
  ⟨'4', 0o60, BAD⟩, ⟨'5', 0o40, BAD⟩, ⟨'V', 0o30, BAD⟩, ⟨'H', 0o20, BAD⟩,
  ⟨'S', 0o10, BAD⟩, ⟨'I', 0o04, BAD⟩, ⟨'T', 0o03, BAD⟩, ⟨'E', 0o02, BAD⟩]

/-- Source: `#define MAXNUM (sizeof(letter)/sizeof(struct lt)-1)`. -/
def MAXNUM : Nat := letter.length - 1

/-- One call of an external output routine of `beep.s`. -/
inductive Out where
  | pc (c : Int)
  | prc (c row col : Int)
  | beep (period dur : Nat)
deriving DecidableEq, Repr

/-- The mutable program state: the globals `letter[]`, `num`, `dit`, the
statics `column` and `give` of `teach`, and the log of output calls. -/
structure State where
  letter : List Lt
  num : Nat
  dit : Nat
  column : Int
  give : Nat
  out : List Out
deriving DecidableEq, Repr

/-- The state at program start: `num = 2`, `dit = DIT(20)`, `column = 0`,
`give = 3500`, and the table as initialised. -/
def State.init : State :=
  { letter := Morse.letter, num := 2, dit := DIT 20, column := 0, give := 3500, out := [] }

/-! ## Machine arithmetic -/

/-- Addition of two `unsigned` values of `w` bits. -/
def uadd (w a b : Nat) : Nat := (a + b) % 2 ^ w
/-- Multiplication of two `unsigned` values of `w` bits. -/
def umul (w a b : Nat) : Nat := (a * b) % 2 ^ w
/-- Subtraction of two `unsigned` values of `w` bits. -/
def usub (w a b : Nat) : Nat := (a + (2 ^ w - b % 2 ^ w)) % 2 ^ w

/-! ## `weight` -/

/-- Source: `unsigned weight(unsigned v1, unsigned v2)
{ return ((7*v1 + v2 + 4) / 8); }`. -/
def weight (w v1 v2 : Nat) : Nat :=
  uadd w (uadd w (umul w 7 v1) v2) 4 / 8

/-! ## `barht`, `update`, `grade` -/

/-- Source: `barht(int score) { return (score*BARHT + BAD/2)/BAD; }`
(signed division truncates). -/
def barht (score : Int) : Int :=
  Int.tdiv (score * (BARHT : Int) + Int.tdiv (BAD : Int) 2) (BAD : Int)

/-- Source: `update(struct lt *l, unsigned g)
{ return l->error = weight(l->error, g); }`.  The pointer `l` is given as
the index of the element in `letter[]`; the value stored, and returned, is
the `unsigned char` truncation of the result of `weight`. -/
def update (w : Nat) (s : State) (l g : Nat) : Option (State × Nat) :=
  match s.letter[l]? with
  | none => none
  | some x =>
    let e := weight w x.error g % 256
    some ({ s with letter := s.letter.set l { x with error := e } }, e)

/-- Source: the bar-resizing loop of `grade` (lines 362-367):
`while (new != old) { if (new > old) prc(' '+NORM, old++, ltr);
else prc(BRCHR+NORM, --old, ltr); }`, run for at most `fuel` tests of the
loop condition; `none` when the loop has not ended by then. -/
def grade_bar : Nat → Int → Int → Int → List Out → Option (List Out)
  | 0, _, _, _, _ => none
  | fuel + 1, new, old, ltr, out =>
    if new ≠ old then
      if new > old then
        grade_bar fuel new (old + 1) ltr (out ++ [Out.prc ((' '.toNat : Int) + NORM) old ltr])
      else
        grade_bar fuel new (old - 1) ltr (out ++ [Out.prc ((BRCHR : Int) + NORM) (old - 1) ltr])
    else some out

/-- Source: `grade(unsigned ltr, unsigned g)` (lines 352-368): one update
of `letter[ltr]`, one update of `OVERALL`, a second update of `letter[ltr]`
when the value returned for `OVERALL` is below `BAD * 1/10`, then the bar of
the letter is resized on the screen. -/
def grade (w : Nat) (s : State) (ltr g : Nat) : Option State := do
  let x ← s.letter[ltr]?
  let col := umul w (usub w ltr 1) 2
  let old : Int := (BARHT : Int) - barht x.error
  let (s1, _) ← update w s ltr g
  let (s2, overall) ← update w s1 0 g
  let s3 ← if overall < BAD * 1 / 10 then (update w s2 ltr g).map Prod.fst else some s2
  let y ← s3.letter[ltr]?
  let new : Int := (BARHT : Int) - barht y.error
  let out ← grade_bar (BARHT + 1) new old col s3.out
  pure { s3 with out := out }

/-! ## `drwbar`, `add_ltr`, `rem_ltr` -/

/-- Source: the loop of `drwbar` (lines 431-434):
`do { if (r-- == s) bc = ' '; prc(bc+NORM, r, c); } while (r);` with `r`
the first argument.  The source enters it with `r = BARHT`; an entry with
`r = 0` (not made by the source) is not modelled and yields `none`. -/
def drwbar_loop : Nat → Int → Int → Int → List Out → Option (List Out)
  | 0, _, _, _, _ => none
  | r + 1, sp, bc, c, out =>
    let bc1 : Int := if ((r + 1 : Nat) : Int) = sp then (' '.toNat : Int) else bc
    let out1 := out ++ [Out.prc (bc1 + NORM) r c]
    if r ≠ 0 then drwbar_loop r sp bc1 c out1 else some out1

/-- Source: `drwbar(int c)` (lines 422-435): draws the annotation and the
bar of `letter[c]`; it changes the screen only. -/
def drwbar (s : State) (c : Nat) : Option State := do
  let x ← s.letter[c]?
  let r0 : Int := x.ascii.toNat
  let sp : Int := (BARHT : Int) - barht x.error
  let r : Int := if c ≤ s.num then r0 + HLGT else r0 + GREY
  let bc : Int := if c ≤ s.num then BRCHR else BRGRY
  let col : Int := ((c : Int) - 1) * 2
  let out ← drwbar_loop BARHT sp bc col (s.out ++ [Out.prc r BARHT col])
  pure { s with out := out }

/-- Source: `add_ltr() { if (num < MAXNUM) drwbar(++num); }`. -/
def add_ltr (w : Nat) (s : State) : Option State :=
  if s.num < MAXNUM then
    let s1 := { s with num := uadd w s.num 1 }
    drwbar s1 s1.num
  else some s

/-- Source: `rem_ltr() { if (num > 1) drwbar(num--); }`: `drwbar` receives
the old value of `num` and runs with `num` already decremented. -/
def rem_ltr (w : Nat) (s : State) : Option State :=
  if s.num > 1 then drwbar { s with num := usub w s.num 1 } s.num
  else some s

/-! ## `select` -/

/-- Source: the first loop of `select` (lines 235-237):
`do { sum += letter[l++].error + 1; } while (l <= num);`, run for at most
`fuel` iterations.  The last component logs the indices of `letter[]` read. -/
def select_sum (s : State) : Nat → Nat → Int → List Nat → Option (Nat × Int × List Nat)
  | 0, _, _, _ => none
  | fuel + 1, l, sum, reads =>
    match s.letter[l]? with
    | none => none
    | some x =>
      let sum1 : Int := sum + ((x.error : Int) + 1)
      let l1 := l + 1
      if l1 ≤ s.num then select_sum s fuel l1 sum1 (reads ++ [l])
      else some (l1, sum1, reads ++ [l])

/-- Source: the second loop of `select` (lines 239-241):
`do { sum -= letter[--l].error + 1; } while (sum > 0);` with `l` the first
argument; `--l` at `l = 0` leaves the table. -/
def select_walk (s : State) : Nat → Int → List Nat → Option (Nat × List Nat)
  | 0, _, _ => none
  | l + 1, sum, reads =>
    match s.letter[l]? with
    | none => none
    | some x =>
      let sum1 : Int := sum - ((x.error : Int) + 1)
      if sum1 > 0 then select_walk s l sum1 (reads ++ [l])
      else some (l, reads ++ [l])

/-- Source: `select()` (lines 230-243); `rand` is the value returned by the
call of `rand()`.  The result is the index returned together with the log of
the indices of `letter[]` that were read; `none` on a read outside the table
or a remainder by zero. -/
def select (s : State) (rand : Int) : Option (Nat × List Nat) :=
  match select_sum s (s.num + 1) 1 0 [] with
  | none => none
  | some (l, sum, reads) =>
    if sum = 0 then none
    else select_walk s l (Int.tmod rand sum) reads

/-! ## The check at the end of `teach` -/

/-- Source: the scan of `teach` (lines 194-195):
`for (l = &letter[num]; l > &OVERALL; l--) if (l->error > BAD * 4/10) return 1;`
with `l` the index; `true` when the `return` inside the loop is taken. -/
def teach_scan (s : State) : Nat → Option Bool
  | 0 => some false
  | l + 1 =>
    match s.letter[l + 1]? with
    | none => none
    | some x => if x.error > BAD * 4 / 10 then some true else teach_scan s l

/-- Source: the end of `teach` after the call of `grade` (lines 193-196):
`if (OVERALL.error > BAD * 3/10) return 1; for (...) ...; add_ltr(); return 1;`.
The value returned is always 1, so only the state is given. -/
def teach_check (w : Nat) (s : State) : Option State :=
  match s.letter[0]? with
  | none => none
  | some o =>
    if o.error > BAD * 3 / 10 then some s
    else
      match teach_scan s s.num with
      | none => none
      | some true => some s
      | some false => add_ltr w s

/-! ## `send` and `teach` -/

/-- Source: the loop of `send` (lines 210-215):
`do { element = dit; if (isdah(code)) element *= 3; beep(TONE_ON, element);
beep(TONE_OFF, dit); } while ((code >>= 1) != 1);`, run for at most `fuel`
iterations; `none` when the loop has not ended by then. -/
def send_loop (dit : Nat) : Nat → Nat → List Out → Option (List Out)
  | 0, _, _ => none
  | fuel + 1, code, out =>
    let element := if code % 2 = 1 then dit * 3 else dit
    let out1 := out ++ [Out.beep TONE_ON element, Out.beep TONE_OFF dit]
    let code1 := code / 2
    if code1 ≠ 1 then send_loop dit fuel code1 out1 else some out1

/-- Source: `send(char code)` (lines 208-216).  A non-negative `char` has 7
value bits, so a loop that ends has ended after 8 iterations. -/
def send (s : State) (code : Nat) : Option State :=
  (send_loop s.dit 8 code s.out).map fun out => { s with out := out }

/-- The outcome of a call of `teach` on a finite record of the values
returned by `resp()` (`keys`, 0 for no key) and by `ticks()`. -/
inductive TeachResult where
  /-- `teach` returned `ret`, leaving the state `s` and the unread input. -/
  | done (ret : Int) (s : State) (keys ticks : List Nat)
  /-- `teach` is still polling when the recorded input ends. -/
  | starved
  /-- An access outside `letter[]`, or a loop that does not end. -/
  | fault
deriving DecidableEq, Repr

/-- Source: the start of one pass of the outer loop of `teach` (lines
161-165): `if (column <= 0) { pc('\n'+CWIN); column = LINLEN; }
send(l->morse);`. -/
def teach_present (s : State) (x : Lt) : Option State :=
  let s1 :=
    if s.column ≤ 0 then
      { s with out := s.out ++ [Out.pc (('\n'.toNat : Int) + CWIN)], column := LINLEN }
    else s
  send s1 x.morse

/-- Source: the end of one pass of the outer loop of `teach` (lines
180-184): `pc(answer+CWIN); pc(' '+CWIN); column -= 2;
give = weight(give, 2*time); if (give>6000) give = 6000;
beep(TONE_OFF, 250);`. -/
def teach_echo (w : Nat) (s : State) (x : Lt) (time : Nat) : State :=
  let give1 := weight w s.give (umul w 2 time)
  { s with
    out := s.out ++ [Out.pc ((x.ascii.toNat : Int) + CWIN), Out.pc ((' '.toNat : Int) + CWIN),
      Out.beep TONE_OFF 250],
    column := s.column - 2,
    give := if give1 > 6000 then 6000 else give1 }

/-- Source: the end of `teach` after its outer loop (lines 186-196):
`grade(lesson, score);` followed by the check, then `return 1`. -/
def teach_finish (w : Nat) (s : State) (lesson score : Nat) (keys ticks : List Nat) :
    TeachResult :=
  match grade w s lesson score with
  | none => TeachResult.fault
  | some s1 =>
    match teach_check w s1 with
    | none => TeachResult.fault
    | some s2 => TeachResult.done 1 s2 keys ticks

mutual

/-- Source: the typeahead flush of `teach` (lines 166-169):
`while (guess = resp()) if (guess == '\r') return column = 0;
ticks(); time = 0;`, followed by the wait loop. -/
def teach_flush (w lesson : Nat) (x : Lt) (score : Nat) (s : State) :
    List Nat → List Nat → TeachResult
  | [], _ => TeachResult.starved
  | k :: ks, ts =>
    if k ≠ 0 then
      if k = '\r'.toNat then TeachResult.done 0 { s with column := 0 } ks ts
      else teach_flush w lesson x score s ks ts
    else
      match ts with
      | [] => TeachResult.starved
      | _ :: ts1 => teach_wait w lesson x score s 0 ks ts1

/-- Source: the wait loop of `teach` and what follows it in the outer loop
(lines 170-185): `do { guess = resp(); if (guess == answer) break;
if (guess == '\r') return column = 0; time += ticks(); } while (time <= give);
if (guess != answer) score = BAD; ...  } while (guess != answer);`.
`time` is the time accumulated so far in this presentation. -/
def teach_wait (w lesson : Nat) (x : Lt) (score : Nat) (s : State) (time : Nat) :
    List Nat → List Nat → TeachResult
  | [], _ => TeachResult.starved
  | k :: ks, ts =>
    if k = x.ascii.toNat then
      teach_finish w (teach_echo w s x time) lesson score ks ts
    else if k = '\r'.toNat then TeachResult.done 0 { s with column := 0 } ks ts
    else
      match ts with
      | [] => TeachResult.starved
      | t :: ts1 =>
        let time1 := uadd w time t
        if time1 ≤ s.give then teach_wait w lesson x score s time1 ks ts1
        else
          match teach_present (teach_echo w s x time1) x with
          | none => TeachResult.fault
          | some s1 => teach_flush w lesson x BAD s1 ks ts1

end

/-- Source: `teach(int lesson)` (lines 149-197) on the recorded input:
`l = &letter[lesson]; answer = l->ascii; score = GOOD;` and the first pass
of the outer loop. -/
def teach (w : Nat) (s : State) (lesson : Nat) (keys ticks : List Nat) : TeachResult :=
  match s.letter[lesson]? with
  | none => TeachResult.fault
  | some x =>
    match teach_present s x with
    | none => TeachResult.fault
    | some s1 => teach_flush w lesson x GOOD s1 keys ticks

/-! ## Vocabulary of the statements -/

/-- The error estimate stored at index `i` of `letter[]` (0 outside the
table). -/
def errorOf (s : State) (i : Nat) : Nat :=
  match s.letter[i]? with
  | some x => x.error
  | none => 0

/-- The sum of `errorOf j + 1` over `j = 1 .. l`. -/
def prefixSum (s : State) : Nat → Int
  | 0 => 0
  | l + 1 => prefixSum s l + ((errorOf s (l + 1) : Int) + 1)

/-- The sum of `errorOf j + 1` over the active indices `j = 1 .. num`. -/
def total (s : State) : Int := prefixSum s s.num

/-- A curriculum state as the program can hold it: the table has its
`MAXNUM + 1` entries, `1 ≤ num ≤ MAXNUM`, and every error estimate is an
`unsigned char` value. -/
def State.wf (s : State) : Prop :=
  s.letter.length = MAXNUM + 1 ∧ 1 ≤ s.num ∧ s.num ≤ MAXNUM ∧
    ∀ x ∈ s.letter, x.error ≤ 255

/-- The table as the program can hold it: `MAXNUM + 1` entries whose error
estimates are `unsigned char` values. -/
def State.tableOk (s : State) : Prop :=
  s.letter.length = MAXNUM + 1 ∧ ∀ x ∈ s.letter, x.error ≤ 255

instance (s : State) : Decidable s.tableOk := by
  unfold State.tableOk
  exact inferInstance

instance (s : State) : Decidable s.wf := by
  unfold State.wf
  exact inferInstance

/-- The index returned by `select` for the draw `r` (the value of
`rand() % sum`), if any. -/
def chosen (s : State) (r : Nat) : Option Nat :=
  (select s (r : Int)).map Prod.fst

/-- The number of draws `r` in `[0, total)` for which `select` returns `i`. -/
def drawCount (s : State) (i : Nat) : Nat :=
  ((List.range (total s).toNat).filter (fun r => chosen s r = some i)).length

/-- A state of demonstrated mastery: aggregate error 20, `num = 2`, the two
active errors 50 and 102. -/
def State.mastered : State :=
  { State.init with
    letter := ((State.init.letter.set 0 ⟨'*', 0, 20⟩).set 1 ⟨'Q', 0o33, 50⟩).set 2 ⟨'7', 0o43, 102⟩ }

/-- A state whose aggregate error is 28 (reached from the start state by
`grade(1, BAD)` and `grade(1, GOOD)` as far as the aggregate goes): otherwise
the start state. -/
def State.nearLow : State :=
  { State.init with letter := State.init.letter.set 0 ⟨'*', 0, 28⟩ }

/-- A sequence of calls `grade(i, g)`, one per element `(i, g)` of the list,
starting in `s`. -/
def grades (w : Nat) : State → List (Nat × Nat) → Option State
  | s, [] => some s
  | s, (i, g) :: rest =>
    match grade w s i g with
    | none => none
    | some s1 => grades w s1 rest

/-- One element of a Morse character: a short or a long tone. -/
inductive Mark where
  | dit
  | dah
deriving DecidableEq, Repr

/-- The pattern byte of a sequence of marks: the marks are the bits from the
least significant one upward (`dah` is 1, `dit` is 0), followed by a stop bit
1 above the last mark. -/
def encode : List Mark → Nat
  | [] => 1
  | m :: ms => (if m = Mark.dah then 1 else 0) + 2 * encode ms

/-- The calls of `beep` for a sequence of marks at dit length `dit`: for each
mark a tone of `dit` (for a dit) or `dit * 3` (for a dah), then a silence of
`dit`. -/
def emit (dit : Nat) : List Mark → List Out
  | [] => []
  | m :: ms =>
    Out.beep TONE_ON (if m = Mark.dah then dit * 3 else dit) :: Out.beep TONE_OFF dit ::
      emit dit ms

/-- International Morse code (Recommendation ITU-R M.1677) of the letters
`A` .. `Z` and the figures `0` .. `9`; the empty sequence for any other
character.  This is the reference the table of the source is compared with. -/
def itu (c : Char) : List Mark :=
  match c with
  | 'A' => [.dit, .dah]
  | 'B' => [.dah, .dit, .dit, .dit]
  | 'C' => [.dah, .dit, .dah, .dit]
  | 'D' => [.dah, .dit, .dit]
  | 'E' => [.dit]
  | 'F' => [.dit, .dit, .dah, .dit]
  | 'G' => [.dah, .dah, .dit]
  | 'H' => [.dit, .dit, .dit, .dit]
  | 'I' => [.dit, .dit]
  | 'J' => [.dit, .dah, .dah, .dah]
  | 'K' => [.dah, .dit, .dah]
  | 'L' => [.dit, .dah, .dit, .dit]
  | 'M' => [.dah, .dah]
  | 'N' => [.dah, .dit]
  | 'O' => [.dah, .dah, .dah]
  | 'P' => [.dit, .dah, .dah, .dit]
  | 'Q' => [.dah, .dah, .dit, .dah]
  | 'R' => [.dit, .dah, .dit]
  | 'S' => [.dit, .dit, .dit]
  | 'T' => [.dah]
  | 'U' => [.dit, .dit, .dah]
  | 'V' => [.dit, .dit, .dit, .dah]
  | 'W' => [.dit, .dah, .dah]
  | 'X' => [.dah, .dit, .dit, .dah]
  | 'Y' => [.dah, .dit, .dah, .dah]
  | 'Z' => [.dah, .dah, .dit, .dit]
  | '1' => [.dit, .dah, .dah, .dah, .dah]
  | '2' => [.dit, .dit, .dah, .dah, .dah]
  | '3' => [.dit, .dit, .dit, .dah, .dah]
  | '4' => [.dit, .dit, .dit, .dit, .dah]
  | '5' => [.dit, .dit, .dit, .dit, .dit]
  | '6' => [.dah, .dit, .dit, .dit, .dit]
  | '7' => [.dah, .dah, .dit, .dit, .dit]
  | '8' => [.dah, .dah, .dah, .dit, .dit]
  | '9' => [.dah, .dah, .dah, .dah, .dit]
  | '0' => [.dah, .dah, .dah, .dah, .dah]
  | _ => []

/-! ## The course of a drill -/

/-- How the loops of `teach` end on a finite record of input. -/
inductive DrillEnd where
  /-- The matching key was received in state `s`, after `timeouts`
  presentations had timed out, at the accumulated time `time` of the current
  presentation; the unread input is left. -/
  | answered (s : State) (timeouts time : Nat) (keys ticks : List Nat)
  /-- The break key was received in state `s`, after `timeouts` presentations
  had timed out; the unread input is left. -/
  | broke (s : State) (timeouts : Nat) (keys ticks : List Nat)
  /-- The loops are still polling when the recorded input ends. -/
  | starved
  /-- An access outside `letter[]`, or a loop that does not end. -/
  | fault
deriving DecidableEq, Repr

mutual

/-- The typeahead flush of `teach` (lines 166-169) as in `teach_flush`,
followed by the wait loop, recording how the loops end and counting in `n`
the presentations that have timed out. -/
def drill_flush (w : Nat) (x : Lt) (s : State) (n : Nat) :
    List Nat → List Nat → DrillEnd
  | [], _ => DrillEnd.starved
  | k :: ks, ts =>
    if k ≠ 0 then
      if k = '\r'.toNat then DrillEnd.broke s n ks ts
      else drill_flush w x s n ks ts
    else
      match ts with
      | [] => DrillEnd.starved
      | _ :: ts1 => drill_wait w x s n 0 ks ts1

/-- The wait loop of `teach` (lines 170-185) as in `teach_wait`: a
presentation times out when the accumulated `time` exceeds `give` at the test
`time <= give` with no matching key received; the loops then run again in
the state left by the end of the pass, with `n + 1` timeouts. -/
def drill_wait (w : Nat) (x : Lt) (s : State) (n time : Nat) :
    List Nat → List Nat → DrillEnd
  | [], _ => DrillEnd.starved
  | k :: ks, ts =>
    if k = x.ascii.toNat then DrillEnd.answered s n time ks ts
    else if k = '\r'.toNat then DrillEnd.broke s n ks ts
    else
      match ts with
      | [] => DrillEnd.starved
      | t :: ts1 =>
        let time1 := uadd w time t
        if time1 ≤ s.give then drill_wait w x s n time1 ks ts1
        else
          match teach_present (teach_echo w s x time1) x with
          | none => DrillEnd.fault
          | some s1 => drill_flush w x s1 (n + 1) ks ts1

end

/-- The loops of `teach(lesson)` on the recorded input, from the first
presentation on. -/
def drill (w : Nat) (s : State) (lesson : Nat) (keys ticks : List Nat) : DrillEnd :=
  match s.letter[lesson]? with
  | none => DrillEnd.fault
  | some x =>
    match teach_present s x with
    | none => DrillEnd.fault
    | some s1 => drill_flush w x s1 0 keys ticks

/-- What `teach` returns for each way its loops can end: after the matching
key the pass is completed (`teach_echo`) and `grade` is called with the
outcome `score`; after the break key `column` is cleared and 0 is returned. -/
def DrillEnd.result (w lesson : Nat) (x : Lt) (score : Nat) : DrillEnd → TeachResult
  | DrillEnd.answered s _ time ks ts => teach_finish w (teach_echo w s x time) lesson score ks ts
  | DrillEnd.broke s _ ks ts => TeachResult.done 0 { s with column := 0 } ks ts
  | DrillEnd.starved => TeachResult.starved
  | DrillEnd.fault => TeachResult.fault

/-- The number of timed-out presentations recorded at the end of the loops. -/
def DrillEnd.timeouts : DrillEnd → Nat
  | DrillEnd.answered _ n _ _ _ => n
  | DrillEnd.broke _ n _ _ => n
  | _ => 0

/-- The value returned and the state left by a call of `teach` that returned. -/
def TeachResult.final : TeachResult → Option (Int × State)
  | TeachResult.done ret s _ _ => some (ret, s)
  | _ => none

/-- The state in which the loops of `teach` ended (the start state when they
did not end). -/
def DrillEnd.state : DrillEnd → State
  | DrillEnd.answered s _ _ _ _ => s
  | DrillEnd.broke s _ _ _ => s
  | _ => State.init

/-- The states the program can be in between two calls made by `main` and
`menu`: the start state, and the state after a call of `teach` that returned
(for any index and any input), after `add_ltr`, after `rem_ltr`, and after a
change of the code speed `dit` in `menu`. -/
inductive Reach (w : Nat) : State → Prop where
  | init : Reach w State.init
  | teach (s : State) (lesson : Nat) (keys ticks : List Nat) (ret : Int) (s1 : State)
      (ks ts : List Nat) :
      Reach w s → Morse.teach w s lesson keys ticks = TeachResult.done ret s1 ks ts → Reach w s1
  | add (s s1 : State) : Reach w s → add_ltr w s = some s1 → Reach w s1
  | rem (s s1 : State) : Reach w s → rem_ltr w s = some s1 → Reach w s1
  | speed (s : State) (d : Nat) : Reach w s → Reach w { s with dit := d }

/-- The start state of the end-to-end scenario: `num = 2`, every error
estimate 255, the aggregate included. -/
def State.allBad : State :=
  { State.init with letter := State.init.letter.set 0 ⟨'*', 0, BAD⟩ }

/-- One completed drill answered on the first presentation, as far as the
curriculum goes: `select()` with the value `rand` of the randomness source,
then `grade(lesson, GOOD)` and the check at the end of `teach`. -/
def completed_drill (w : Nat) (s : State) (rand : Int) : Option State :=
  match select s rand with
  | none => none
  | some (lesson, _) =>
    match grade w s lesson GOOD with
    | none => none
    | some s1 => teach_check w s1

/-- A sequence of completed drills, one per value of the randomness source;
the result lists the state after each drill. -/
def completed_drills (w : Nat) : State → List Int → Option (List State)
  | _, [] => some []
  | s, r :: rs =>
    match completed_drill w s r with
    | none => none
    | some s1 =>
      match completed_drills w s1 rs with
      | none => none
      | some l => some (s1 :: l)

/-- The values `n` successive `GOOD` updates give to an estimate `a` when no
wrap-around occurs. -/
def good_updates : Nat → Nat → List Nat
  | 0, _ => []
  | n + 1, a => (7 * a + 4) / 8 :: good_updates n ((7 * a + 4) / 8)

/-! ## Theorems -/

/-- No wrap-around occurs in `weight` while `7*v1 + v2 + 4` fits 16 bits. -/
theorem weight_eq (w v1 v2 : Nat) (hw : 16 ≤ w) (h : 7 * v1 + v2 + 4 < 65536) :
    weight w v1 v2 = (7 * v1 + v2 + 4) / 8 := by
  have hp : (65536 : Nat) ≤ 2 ^ w := by
    calc (65536 : Nat) = 2 ^ 16 := by norm_num
      _ ≤ 2 ^ w := Nat.pow_le_pow_right (by norm_num) hw
  unfold weight uadd umul
  rw [Nat.mod_eq_of_lt (a := 7 * v1) (by omega), Nat.mod_eq_of_lt (a := 7 * v1 + v2) (by omega),
    Nat.mod_eq_of_lt (a := 7 * v1 + v2 + 4) (by omega)]

/-- C1: for `previous, sample ∈ [0,255]` the result of `weight` lies in
`[0,255]`. -/
theorem weight_bounds (w previous sample : Nat) (hw : 16 ≤ w)
    (hp : previous ≤ 255) (hs : sample ≤ 255) :
    0 ≤ weight w previous sample ∧ weight w previous sample ≤ 255 := by
  rw [weight_eq w previous sample hw (by omega)]
  omega

theorem weight_bounds_witness :
    16 ≤ 16 ∧ 255 ≤ 255 ∧ 0 ≤ 255 ∧
      (0 ≤ weight 16 255 0 ∧ weight 16 255 0 ≤ 255) :=
  ⟨by decide, by decide, by decide, weight_bounds 16 255 0 (by decide) (by decide) (by decide)⟩

/-- C2: for `previous, sample ∈ [0,255]`, `weight` is
`floor((7*previous + sample + 4) / 8)`, which is the integer `r` nearest to
`(7*previous + sample)/8` with halves rounded up:
`r - 1/2 ≤ (7*previous + sample)/8 < r + 1/2`. -/
theorem weight_round_half_up (w previous sample : Nat) (hw : 16 ≤ w)
    (hp : previous ≤ 255) (hs : sample ≤ 255) :
    weight w previous sample = (7 * previous + sample + 4) / 8 ∧
      8 * weight w previous sample ≤ 7 * previous + sample + 4 ∧
      7 * previous + sample < 8 * weight w previous sample + 4 := by
  rw [weight_eq w previous sample hw (by omega)]
  omega

theorem weight_round_half_up_witness :
    16 ≤ 16 ∧ 100 ≤ 255 ∧ 255 ≤ 255 ∧
      (weight 16 100 255 = (7 * 100 + 255 + 4) / 8 ∧
        8 * weight 16 100 255 ≤ 7 * 100 + 255 + 4 ∧
        7 * 100 + 255 < 8 * weight 16 100 255 + 4) :=
  ⟨by decide, by decide, by decide,
    weight_round_half_up 16 100 255 (by decide) (by decide) (by decide)⟩

/-- C3: for `x ∈ [0,255]`, `0 ≤ weight(x, GOOD) ≤ x` and
`x ≤ weight(x, BAD) ≤ 255`: an update never moves away from its sample and
never passes it. -/
theorem weight_monotone_no_overshoot (w x : Nat) (hw : 16 ≤ w) (hx : x ≤ 255) :
    (0 ≤ weight w x GOOD ∧ weight w x GOOD ≤ x) ∧
      (x ≤ weight w x BAD ∧ weight w x BAD ≤ 255) := by
  rw [weight_eq w x GOOD hw (by simp only [GOOD]; omega),
    weight_eq w x BAD hw (by simp only [BAD]; omega)]
  simp only [GOOD, BAD]
  omega

theorem weight_monotone_no_overshoot_witness :
    16 ≤ 16 ∧ 200 ≤ 255 ∧
      ((0 ≤ weight 16 200 GOOD ∧ weight 16 200 GOOD ≤ 200) ∧
        (200 ≤ weight 16 200 BAD ∧ weight 16 200 BAD ≤ 255)) :=
  ⟨by decide, by decide, weight_monotone_no_overshoot 16 200 (by decide) (by decide)⟩

/-- Repeated `GOOD` updates reach `min x 4`. -/
theorem iterate_good_reaches (w : Nat) (hw : 16 ≤ w) :
    ∀ k x : Nat, x ≤ 4 + k → x ≤ 255 →
      ∃ n, (fun y => weight w y GOOD)^[n] x = min x 4 := by
  intro k
  induction k with
  | zero =>
    intro x hx _
    exact ⟨0, by simp only [Function.iterate_zero, id]; omega⟩
  | succ k ih =>
    intro x hx hx255
    by_cases h4 : x ≤ 4
    · exact ⟨0, by simp only [Function.iterate_zero, id]; omega⟩
    · have hstep : weight w x GOOD = (7 * x + 4) / 8 := by
        rw [weight_eq w x GOOD hw (by simp only [GOOD]; omega)]; simp only [GOOD]
      obtain ⟨n, hn⟩ := ih (weight w x GOOD) (by rw [hstep]; omega) (by rw [hstep]; omega)
      refine ⟨n + 1, ?_⟩
      rw [Function.iterate_succ_apply, hn, hstep]
      omega

/-- Repeated `BAD` updates reach `max x 252`. -/
theorem iterate_bad_reaches (w : Nat) (hw : 16 ≤ w) :
    ∀ k x : Nat, 252 ≤ x + k → x ≤ 255 →
      ∃ n, (fun y => weight w y BAD)^[n] x = max x 252 := by
  intro k
  induction k with
  | zero =>
    intro x hx _
    exact ⟨0, by simp only [Function.iterate_zero, id]; omega⟩
  | succ k ih =>
    intro x hx hx255
    by_cases h4 : 252 ≤ x
    · exact ⟨0, by simp only [Function.iterate_zero, id]; omega⟩
    · have hstep : weight w x BAD = (7 * x + 259) / 8 := by
        rw [weight_eq w x BAD hw (by simp only [BAD]; omega)]; simp only [BAD]
      obtain ⟨n, hn⟩ := ih (weight w x BAD) (by rw [hstep]; omega) (by rw [hstep]; omega)
      refine ⟨n + 1, ?_⟩
      rw [Function.iterate_succ_apply, hn, hstep]
      omega

/-- C4 (as stated) fails at `x = 4`: no number of `GOOD` updates takes 4 to
0, since `weight(4, GOOD) = 4`, and no number of `BAD` updates takes 4 to
255, since the value never passes 252. -/
theorem weight_converge_counterexample :
    (¬ ∃ n, (fun y => weight 16 y GOOD)^[n] 4 = 0) ∧
      (¬ ∃ n, (fun y => weight 16 y BAD)^[n] 4 = 255) := by
  constructor
  · rintro ⟨n, hn⟩
    rw [Function.iterate_fixed (by decide) n] at hn
    exact absurd hn (by decide)
  · rintro ⟨n, hn⟩
    have hstep : ∀ v, v ≤ 252 → weight 16 v BAD ≤ 252 := by
      intro v hv
      rw [weight_eq 16 v BAD (by decide) (by simp only [BAD]; omega)]
      simp only [BAD]
      omega
    have hle : ∀ m, (fun y => weight 16 y BAD)^[m] 4 ≤ 252 := by
      intro m
      induction m with
      | zero => simp
      | succ m ih =>
        rw [Function.iterate_succ_apply']
        exact hstep _ ih
    have := hle n
    omega

/-- C4 (amended): for `x ∈ [0,255]`, some number of `GOOD` updates takes
`x` to `min x 4` and some number of `BAD` updates takes `x` to `max x 252`,
and both of these values are fixed points of the respective update. -/
theorem weight_converge (w x : Nat) (hw : 16 ≤ w) (hx : x ≤ 255) :
    (∃ n, (fun y => weight w y GOOD)^[n] x = min x 4 ∧
        weight w (min x 4) GOOD = min x 4) ∧
      (∃ n, (fun y => weight w y BAD)^[n] x = max x 252 ∧
        weight w (max x 252) BAD = max x 252) := by
  constructor
  · obtain ⟨n, hn⟩ := iterate_good_reaches w hw x x (by omega) hx
    refine ⟨n, hn, ?_⟩
    rw [weight_eq w _ GOOD hw (by simp only [GOOD]; omega)]
    simp only [GOOD]
    omega
  · obtain ⟨n, hn⟩ := iterate_bad_reaches w hw 252 x (by omega) hx
    refine ⟨n, hn, ?_⟩
    rw [weight_eq w _ BAD hw (by simp only [BAD]; omega)]
    simp only [BAD]
    omega

theorem weight_converge_witness :
    16 ≤ 16 ∧ 100 ≤ 255 ∧
      ((∃ n, (fun y => weight 16 y GOOD)^[n] 100 = min 100 4 ∧
          weight 16 (min 100 4) GOOD = min 100 4) ∧
        (∃ n, (fun y => weight 16 y BAD)^[n] 100 = max 100 252 ∧
          weight 16 (max 100 252) BAD = max 100 252)) :=
  ⟨by decide, by decide, weight_converge 16 100 (by decide) (by decide)⟩

/-! ### `select` -/

theorem errorOf_eq (s : State) (i : Nat) (x : Lt) (h : s.letter[i]? = some x) :
    errorOf s i = x.error := by
  simp [errorOf, h]

theorem prefixSum_nonneg (s : State) : ∀ l, 0 ≤ prefixSum s l
  | 0 => le_refl _
  | l + 1 => by
    have := prefixSum_nonneg s l
    simp only [prefixSum]
    omega

theorem prefixSum_pos (s : State) (l : Nat) (h : 1 ≤ l) : 0 < prefixSum s l := by
  obtain ⟨k, rfl⟩ : ∃ k, l = k + 1 := ⟨l - 1, by omega⟩
  have := prefixSum_nonneg s k
  simp only [prefixSum]
  omega

theorem errorOf_le (s : State) (h : ∀ x ∈ s.letter, x.error ≤ 255) (i : Nat) :
    errorOf s i ≤ 255 := by
  unfold errorOf
  cases hget : s.letter[i]? with
  | none => simp
  | some x => exact h x (List.mem_iff_getElem?.mpr ⟨i, hget⟩)

theorem prefixSum_le (s : State) (h : ∀ x ∈ s.letter, x.error ≤ 255) :
    ∀ l : Nat, prefixSum s l ≤ 256 * (l : Int)
  | 0 => by simp [prefixSum]
  | l + 1 => by
    have h1 := prefixSum_le s h l
    have h2 := errorOf_le s h (l + 1)
    simp only [prefixSum]
    push_cast
    omega

/-- The first loop of `select`, entered at `l = k + 1` with the sum of the
weights of `1 .. k`, ends with `l = num + 1` and the sum of all active
weights, having read only indices in `1 .. num`. -/
theorem select_sum_spec (s : State) (hlen : s.num < s.letter.length) :
    ∀ (fuel k : Nat) (reads : List Nat), k < s.num → s.num ≤ k + fuel →
      ∃ rd, select_sum s fuel (k + 1) (prefixSum s k) reads
          = some (s.num + 1, total s, reads ++ rd) ∧
        ∀ j ∈ rd, 1 ≤ j ∧ j ≤ s.num := by
  intro fuel
  induction fuel with
  | zero => intro k reads hk hf; omega
  | succ fuel ih =>
    intro k reads hk hf
    have hget : s.letter[k + 1]? = some s.letter[k + 1] :=
      List.getElem?_eq_getElem (by omega)
    have herr := errorOf_eq s (k + 1) _ hget
    by_cases hlast : k + 1 + 1 ≤ s.num
    · obtain ⟨rd, h1, h2⟩ := ih (k + 1) (reads ++ [k + 1]) (by omega) (by omega)
      refine ⟨(k + 1) :: rd, ?_, ?_⟩
      · simp only [select_sum, hget, hlast, if_true]
        rw [← herr]
        simp only [prefixSum] at h1
        rw [h1]
        simp
      · intro j hj
        rcases List.mem_cons.mp hj with rfl | hj
        · omega
        · exact h2 j hj
    · refine ⟨[k + 1], ?_, ?_⟩
      · have hk1 : k + 1 = s.num := by omega
        simp only [select_sum, hget, hlast, if_false]
        rw [← herr, total, ← hk1]
        simp [prefixSum]
      · intro j hj
        simp only [List.mem_singleton] at hj
        omega

/-- The second loop of `select`, entered at `l + 1` with a remainder below
the sum of the weights of `1 .. l`, stops at an index in `1 .. l`, having
read only indices in `1 .. l`. -/
theorem select_walk_spec (s : State) :
    ∀ (l : Nat) (sum : Int) (reads : List Nat), 1 ≤ l → l < s.letter.length →
      sum < prefixSum s l →
      ∃ i rd, select_walk s (l + 1) sum reads = some (i, reads ++ rd) ∧
        1 ≤ i ∧ i ≤ l ∧ ∀ j ∈ rd, 1 ≤ j ∧ j ≤ l := by
  intro l
  induction l with
  | zero => intro sum reads h1; omega
  | succ l ih =>
    intro sum reads _ hlen hsum
    have hget : s.letter[l + 1]? = some s.letter[l + 1] :=
      List.getElem?_eq_getElem hlen
    have herr := errorOf_eq s (l + 1) _ hget
    simp only [prefixSum, herr] at hsum
    by_cases hpos : sum - ((s.letter[l + 1].error : Int) + 1) > 0
    · have hl : 1 ≤ l := by
        rcases Nat.eq_zero_or_pos l with h0 | h0
        · subst h0
          simp only [prefixSum] at hsum
          omega
        · exact h0
      obtain ⟨i, rd, h1, h2, h3, h4⟩ :=
        ih (sum - ((s.letter[l + 1].error : Int) + 1)) (reads ++ [l + 1]) hl (by omega) (by omega)
      refine ⟨i, (l + 1) :: rd, ?_, h2, by omega, ?_⟩
      · rw [select_walk]
        simp only [hget, hpos, if_true]
        rw [h1]
        simp
      · intro j hj
        rcases List.mem_cons.mp hj with rfl | hj
        · omega
        · have := h4 j hj
          omega
    · refine ⟨l + 1, [l + 1], ?_, by omega, le_refl _, ?_⟩
      · rw [select_walk]
        simp only [hget, hpos, if_false]
      · intro j hj
        simp only [List.mem_singleton] at hj
        omega

/-- C5: in a state with the full table, `1 ≤ num ≤ MAXNUM` and error
estimates in `[0,255]`, for every non-negative value `rand` of the
randomness source, `select` returns an index `l` with `1 ≤ l ≤ num`, and every
index of `letter[]` it reads lies in `1 .. num`; the sum it forms is positive
(no remainder by zero) and at most `256 * MAXNUM` (inside a 16-bit `int`). -/
theorem select_in_range (s : State) (rand : Int) (hs : s.wf) (_hr : 0 ≤ rand) :
    (0 < total s ∧ total s ≤ 256 * (MAXNUM : Int)) ∧
    ∃ l reads, select s rand = some (l, reads) ∧ 1 ≤ l ∧ l ≤ s.num ∧
      ∀ j ∈ reads, 1 ≤ j ∧ j ≤ s.num := by
  obtain ⟨hlen, h1, hmax, herr⟩ := hs
  refine ⟨⟨prefixSum_pos s s.num h1, ?_⟩, ?_⟩
  · have := prefixSum_le s herr s.num
    unfold total
    omega
  have hlt : s.num < s.letter.length := by omega
  obtain ⟨rd, hsum, hrd⟩ := select_sum_spec s hlt (s.num + 1) 0 [] (by omega) (by omega)
  have htot : 0 < total s := prefixSum_pos s s.num h1
  obtain ⟨i, rd2, hwalk, hi1, hi2, hrd2⟩ :=
    select_walk_spec s s.num (Int.tmod rand (total s)) ([] ++ rd) h1 hlt
      (Int.tmod_lt_of_pos rand htot)
  refine ⟨i, ([] ++ rd) ++ rd2, ?_, hi1, hi2, ?_⟩
  · simp only [prefixSum] at hsum
    simp only [select, hsum]
    rw [if_neg (by omega)]
    exact hwalk
  · intro j hj
    rcases List.mem_append.mp hj with hj | hj
    · exact hrd j (by simpa using hj)
    · exact hrd2 j hj

theorem select_in_range_witness :
    State.init.wf ∧ (0 : Int) ≤ 12345 ∧
      (0 < total State.init ∧ total State.init ≤ 256 * (MAXNUM : Int)) ∧
      ∃ l reads, select State.init 12345 = some (l, reads) ∧ 1 ≤ l ∧ l ≤ State.init.num ∧
        ∀ j ∈ reads, 1 ≤ j ∧ j ≤ State.init.num :=
  ⟨by decide, by decide, select_in_range State.init 12345 (by decide) (by decide)⟩

set_option maxRecDepth 100000 in
/-- C7 (the code at the failing input): in the start state (`num = 2`, both
errors 255, total 512) index 2 is returned for 257 draws and index 1 for 255
draws, not for `error + 1 = 256` draws each: the draws `0 .. 256` give 2 and
the draws `257 .. 511` give 1. -/
theorem select_counts_at_start :
    total State.init = 512 ∧ errorOf State.init 1 = 255 ∧ errorOf State.init 2 = 255 ∧
      drawCount State.init 1 = 255 ∧ drawCount State.init 2 = 257 ∧
      chosen State.init 256 = some 2 ∧ chosen State.init 257 = some 1 := by
  decide

/-! ### Machine arithmetic without wrap-around -/

theorem two_pow_ge (w : Nat) (hw : 16 ≤ w) : 65536 ≤ 2 ^ w := by
  calc (65536 : Nat) = 2 ^ 16 := by norm_num
    _ ≤ 2 ^ w := Nat.pow_le_pow_right (by norm_num) hw

theorem uadd_eq (w a b : Nat) (hw : 16 ≤ w) (h : a + b < 65536) : uadd w a b = a + b := by
  have := two_pow_ge w hw
  exact Nat.mod_eq_of_lt (by omega)

theorem usub_eq (w a b : Nat) (hw : 16 ≤ w) (hb : b ≤ a) (ha : a < 65536) :
    usub w a b = a - b := by
  have hp := two_pow_ge w hw
  unfold usub
  rw [Nat.mod_eq_of_lt (a := b) (by omega)]
  have h1 : a + (2 ^ w - b) = (a - b) + 2 ^ w := by omega
  rw [h1, Nat.add_mod_right]
  exact Nat.mod_eq_of_lt (by omega)

theorem MAXNUM_eq : MAXNUM = 36 := by decide

/-! ### `drwbar`, `add_ltr`, `rem_ltr` and the check at the end of `teach` -/

theorem drwbar_loop_some :
    ∀ (r : Nat) (sp bc c : Int) (out : List Out), 1 ≤ r →
      ∃ out1, drwbar_loop r sp bc c out = some out1 := by
  intro r
  induction r with
  | zero => intro sp bc c out h; omega
  | succ r ih =>
    intro sp bc c out _
    by_cases h0 : r = 0
    · subst h0
      exact ⟨_, by simp only [drwbar_loop, ne_eq, not_true_eq_false, if_false]; rfl⟩
    · obtain ⟨out1, h1⟩ := ih sp
        (if ((r + 1 : Nat) : Int) = sp then ((' '.toNat : Nat) : Int) else bc) c
        (out ++ [Out.prc ((if ((r + 1 : Nat) : Int) = sp then ((' '.toNat : Nat) : Int) else bc)
          + (NORM : Int)) r c]) (by omega)
      exact ⟨out1, by simp only [drwbar_loop, h0, ne_eq, not_false_eq_true, if_true]; exact h1⟩

/-- `drwbar` on an index inside the table returns and changes only the
output log. -/
theorem drwbar_spec (s : State) (c : Nat) (hc : c < s.letter.length) :
    ∃ out, drwbar s c = some { s with out := out } := by
  have hget : s.letter[c]? = some s.letter[c] := List.getElem?_eq_getElem hc
  obtain ⟨out1, h1⟩ := drwbar_loop_some BARHT
    ((BARHT : Int) - barht (s.letter[c].error : Int))
    (if c ≤ s.num then (BRCHR : Int) else (BRGRY : Int)) (((c : Int) - 1) * 2)
    (s.out ++ [Out.prc (if c ≤ s.num then ((s.letter[c].ascii.toNat : Nat) : Int) + (HLGT : Int)
      else ((s.letter[c].ascii.toNat : Nat) : Int) + (GREY : Int)) BARHT (((c : Int) - 1) * 2)])
    (by decide)
  exact ⟨out1, by simp [drwbar, hget, h1]⟩

/-- `add_ltr` returns; it increments `num` when `num < MAXNUM`, leaves it
otherwise, and changes nothing else but the output log. -/
theorem add_ltr_spec (w : Nat) (s : State) (hw : 16 ≤ w)
    (hlen : s.letter.length = MAXNUM + 1) :
    ∃ out, add_ltr w s
      = some { s with num := if s.num < MAXNUM then s.num + 1 else s.num, out := out } := by
  rw [MAXNUM_eq] at hlen
  by_cases h : s.num < MAXNUM
  · have h36 : s.num < 36 := by rw [MAXNUM_eq] at h; exact h
    obtain ⟨out, ho⟩ := drwbar_spec { s with num := s.num + 1 } (s.num + 1)
      (by show s.num + 1 < s.letter.length; omega)
    refine ⟨out, ?_⟩
    simp only [add_ltr, h, if_true]
    rw [uadd_eq w s.num 1 hw (by omega)]
    exact ho
  · exact ⟨s.out, by simp [add_ltr, h]⟩

/-- `rem_ltr` returns; it decrements `num` when `num > 1`, leaves it
otherwise, and changes nothing else but the output log. -/
theorem rem_ltr_spec (w : Nat) (s : State) (hw : 16 ≤ w)
    (hlen : s.letter.length = MAXNUM + 1) (hnum : s.num ≤ MAXNUM) :
    ∃ out, rem_ltr w s
      = some { s with num := if s.num > 1 then s.num - 1 else s.num, out := out } := by
  rw [MAXNUM_eq] at hlen hnum
  by_cases h : s.num > 1
  · obtain ⟨out, ho⟩ := drwbar_spec { s with num := s.num - 1 } s.num
      (by show s.num < s.letter.length; omega)
    refine ⟨out, ?_⟩
    simp only [rem_ltr, h, if_true]
    rw [usub_eq w s.num 1 hw (by omega) (by omega)]
    exact ho
  · exact ⟨s.out, by simp [rem_ltr, h]⟩

/-- The scan of `teach` over `l, l-1, .., 1` returns, and reports `false`
exactly when no error estimate in `1 .. l` exceeds 102. -/
theorem teach_scan_spec (s : State) :
    ∀ l : Nat, l < s.letter.length →
      ∃ b, teach_scan s l = some b ∧
        (b = false ↔ ∀ i, 1 ≤ i → i ≤ l → errorOf s i ≤ 102) := by
  intro l
  induction l with
  | zero => intro _; exact ⟨false, rfl, by simp; intro i h1 h2; omega⟩
  | succ l ih =>
    intro hlen
    have hget : s.letter[l + 1]? = some s.letter[l + 1] := List.getElem?_eq_getElem hlen
    have herr := errorOf_eq s (l + 1) _ hget
    obtain ⟨b, hb, hiff⟩ := ih (by omega)
    by_cases hbig : s.letter[l + 1].error > BAD * 4 / 10
    · refine ⟨true, by simp [teach_scan, hget, hbig], ?_⟩
      simp only [Bool.true_eq_false, false_iff, not_forall]
      refine ⟨l + 1, by omega, le_refl _, ?_⟩
      rw [herr]
      simp only [BAD] at hbig
      omega
    · refine ⟨b, by simp only [teach_scan, hget, hbig, if_false]; exact hb, ?_⟩
      rw [hiff]
      constructor
      · intro h i h1 h2
        rcases Nat.lt_or_ge i (l + 1) with hlt | hge
        · exact h i h1 (by omega)
        · have : i = l + 1 := by omega
          subst this
          rw [herr]
          simp only [BAD] at hbig
          omega
      · intro h i h1 h2
        exact h i h1 (by omega)

/-- The check at the end of `teach` returns; it leaves the table alone and
sets `num` to `num + 1` when `num < MAXNUM`, the aggregate error is at most
76 and no active error exceeds 102, and leaves `num` alone otherwise. -/
theorem teach_check_spec (w : Nat) (s : State) (hw : 16 ≤ w)
    (hlen : s.letter.length = MAXNUM + 1) (hnum : s.num ≤ MAXNUM) :
    ∃ s1, teach_check w s = some s1 ∧ s1.letter = s.letter ∧
      ((s.num < MAXNUM ∧ errorOf s 0 ≤ 76 ∧ ∀ i, 1 ≤ i → i ≤ s.num → errorOf s i ≤ 102) →
        s1.num = s.num + 1) ∧
      (¬ (s.num < MAXNUM ∧ errorOf s 0 ≤ 76 ∧ ∀ i, 1 ≤ i → i ≤ s.num → errorOf s i ≤ 102) →
        s1.num = s.num) := by
  have hlen0 : 0 < s.letter.length := by omega
  have hget : s.letter[0]? = some s.letter[0] := List.getElem?_eq_getElem hlen0
  have herr := errorOf_eq s 0 _ hget
  by_cases hover : s.letter[0].error > BAD * 3 / 10
  · refine ⟨s, by simp [teach_check, hget, hover], rfl, ?_, fun _ => rfl⟩
    rintro ⟨_, h76, _⟩
    rw [herr] at h76
    simp only [BAD] at hover
    omega
  · obtain ⟨b, hb, hiff⟩ := teach_scan_spec s s.num (by omega)
    have h76 : errorOf s 0 ≤ 76 := by
      rw [herr]
      simp only [BAD] at hover
      omega
    cases b with
    | true =>
      refine ⟨s, by simp [teach_check, hget, hover, hb], rfl, ?_, fun _ => rfl⟩
      rintro ⟨_, _, hall⟩
      exact absurd (hiff.mpr hall) (by simp)
    | false =>
      have hall := hiff.mp rfl
      obtain ⟨out, ho⟩ := add_ltr_spec w s hw hlen
      refine ⟨{ s with num := if s.num < MAXNUM then s.num + 1 else s.num, out := out },
        by simp only [teach_check, hget, hover, if_false, hb]; exact ho, rfl, ?_, ?_⟩
      · rintro ⟨hlt, _, _⟩
        simp [hlt]
      · intro hnot
        have hge : ¬ s.num < MAXNUM := fun hlt => hnot ⟨hlt, h76, hall⟩
        simp [hge]

/-- C8: the check at the end of `teach` (after `grade`) returns, and it
raises `num` by exactly 1 if and only if `num < MAXNUM`, the aggregate error
is at most 76 (`BAD * 3/10`) and every `letter[i].error`, `i` in `1 .. num`,
is at most 102 (`BAD * 4/10`); in every other case `num` is unchanged.  In
particular with aggregate error 20, all active errors at most 102 and
`num < MAXNUM`, `num` rises by exactly 1. -/
theorem teach_check_widens (w : Nat) (s : State) (hw : 16 ≤ w) (hs : s.wf) :
    BAD * 3 / 10 = 76 ∧ BAD * 4 / 10 = 102 ∧
      ∃ s1, teach_check w s = some s1 ∧
        (s1.num = s.num + 1 ↔
          (s.num < MAXNUM ∧ errorOf s 0 ≤ 76 ∧
            ∀ i, 1 ≤ i → i ≤ s.num → errorOf s i ≤ 102)) ∧
        (s1.num ≠ s.num + 1 → s1.num = s.num) ∧
        (errorOf s 0 = 20 → s.num < MAXNUM →
          (∀ i, 1 ≤ i → i ≤ s.num → errorOf s i ≤ 102) → s1.num = s.num + 1) := by
  obtain ⟨hlen, _, hmax, _⟩ := hs
  obtain ⟨s1, h1, _, hyes, hno⟩ := teach_check_spec w s hw hlen hmax
  refine ⟨by decide, by decide, s1, h1, ⟨?_, hyes⟩, ?_, ?_⟩
  · intro hnum
    by_contra hc
    have := hno hc
    omega
  · intro hne
    by_contra hc
    exact hc (hno (fun hcond => hne (hyes hcond)))
  · intro h20 hlt hall
    exact hyes ⟨hlt, by omega, hall⟩

theorem teach_check_widens_witness :
    16 ≤ 16 ∧ State.mastered.wf ∧
      (BAD * 3 / 10 = 76 ∧ BAD * 4 / 10 = 102 ∧
        ∃ s1, teach_check 16 State.mastered = some s1 ∧
          (s1.num = State.mastered.num + 1 ↔
            (State.mastered.num < MAXNUM ∧ errorOf State.mastered 0 ≤ 76 ∧
              ∀ i, 1 ≤ i → i ≤ State.mastered.num → errorOf State.mastered i ≤ 102)) ∧
          (s1.num ≠ State.mastered.num + 1 → s1.num = State.mastered.num) ∧
          (errorOf State.mastered 0 = 20 → State.mastered.num < MAXNUM →
            (∀ i, 1 ≤ i → i ≤ State.mastered.num → errorOf State.mastered i ≤ 102) →
            s1.num = State.mastered.num + 1)) :=
  ⟨by decide, by decide, teach_check_widens 16 State.mastered (by decide) (by decide)⟩

/-- C9: with `MAXNUM = 36`, in a state with `1 ≤ num ≤ MAXNUM` each of
`add_ltr`, `rem_ltr` and the check at the end of `teach` returns, changes
`num` by at most 1 and keeps `1 ≤ num ≤ MAXNUM`; `add_ltr` leaves `num` alone
at `num = MAXNUM` and otherwise increments it by exactly 1; `rem_ltr` leaves
it alone at `num = 1` and otherwise decrements it by exactly 1. -/
theorem num_stays_in_range (w : Nat) (s : State) (hw : 16 ≤ w) (hs : s.wf) :
    MAXNUM = 36 ∧
      (∃ s1, add_ltr w s = some s1 ∧
        s1.num = (if s.num = MAXNUM then s.num else s.num + 1) ∧
        1 ≤ s1.num ∧ s1.num ≤ MAXNUM) ∧
      (∃ s1, rem_ltr w s = some s1 ∧
        s1.num = (if s.num = 1 then s.num else s.num - 1) ∧
        1 ≤ s1.num ∧ s1.num ≤ MAXNUM) ∧
      (∃ s1, teach_check w s = some s1 ∧
        (s1.num = s.num ∨ s1.num = s.num + 1) ∧
        1 ≤ s1.num ∧ s1.num ≤ MAXNUM) := by
  obtain ⟨hlen, h1, hmax, _⟩ := hs
  refine ⟨MAXNUM_eq, ?_, ?_, ?_⟩
  · obtain ⟨out, ho⟩ := add_ltr_spec w s hw hlen
    refine ⟨_, ho, ?_, ?_, ?_⟩
    · show (if s.num < MAXNUM then s.num + 1 else s.num) = _
      split_ifs <;> omega
    · show 1 ≤ (if s.num < MAXNUM then s.num + 1 else s.num)
      split_ifs <;> omega
    · show (if s.num < MAXNUM then s.num + 1 else s.num) ≤ MAXNUM
      split_ifs <;> omega
  · obtain ⟨out, ho⟩ := rem_ltr_spec w s hw hlen hmax
    refine ⟨_, ho, ?_, ?_, ?_⟩
    · show (if s.num > 1 then s.num - 1 else s.num) = _
      split_ifs <;> omega
    · show 1 ≤ (if s.num > 1 then s.num - 1 else s.num)
      split_ifs <;> omega
    · show (if s.num > 1 then s.num - 1 else s.num) ≤ MAXNUM
      split_ifs <;> omega
  · obtain ⟨s1, hs1, _, hyes, hno⟩ := teach_check_spec w s hw hlen hmax
    by_cases hc : s.num < MAXNUM ∧ errorOf s 0 ≤ 76 ∧
        ∀ i, 1 ≤ i → i ≤ s.num → errorOf s i ≤ 102
    · have := hyes hc
      exact ⟨s1, hs1, Or.inr this, by omega, by omega⟩
    · have := hno hc
      exact ⟨s1, hs1, Or.inl this, by omega, by omega⟩

theorem num_stays_in_range_witness :
    16 ≤ 16 ∧ State.init.wf ∧
      (MAXNUM = 36 ∧
        (∃ s1, add_ltr 16 State.init = some s1 ∧
          s1.num = (if State.init.num = MAXNUM then State.init.num else State.init.num + 1) ∧
          1 ≤ s1.num ∧ s1.num ≤ MAXNUM) ∧
        (∃ s1, rem_ltr 16 State.init = some s1 ∧
          s1.num = (if State.init.num = 1 then State.init.num else State.init.num - 1) ∧
          1 ≤ s1.num ∧ s1.num ≤ MAXNUM) ∧
        (∃ s1, teach_check 16 State.init = some s1 ∧
          (s1.num = State.init.num ∨ s1.num = State.init.num + 1) ∧
          1 ≤ s1.num ∧ s1.num ≤ MAXNUM)) :=
  ⟨by decide, by decide, num_stays_in_range 16 State.init (by decide) (by decide)⟩

/-! ### `grade` -/

theorem barht_range (e : Nat) (h : e ≤ 255) :
    0 ≤ barht (e : Int) ∧ barht (e : Int) ≤ 19 := by
  have h2 : Int.tdiv (255 : Int) 2 = 127 := by decide
  unfold barht
  simp only [BARHT, NLINE, BAD]
  norm_num
  rw [h2, Int.tdiv_eq_ediv (by omega) (by omega)]
  omega

theorem grade_bar_some :
    ∀ (fuel : Nat) (new old ltr : Int) (out : List Out), (new - old).natAbs < fuel →
      ∃ out1, grade_bar fuel new old ltr out = some out1 := by
  intro fuel
  induction fuel with
  | zero => intro new old ltr out h; omega
  | succ fuel ih =>
    intro new old ltr out h
    by_cases hne : new = old
    · exact ⟨out, by simp [grade_bar, hne]⟩
    · by_cases hgt : new > old
      · obtain ⟨o, ho⟩ := ih new (old + 1) ltr
          (out ++ [Out.prc (((' '.toNat : Nat) : Int) + (NORM : Int)) old ltr]) (by omega)
        exact ⟨o, by simp only [grade_bar, ne_eq, hne, not_false_eq_true, if_true, hgt]; exact ho⟩
      · obtain ⟨o, ho⟩ := ih new (old - 1) ltr
          (out ++ [Out.prc ((BRCHR : Int) + (NORM : Int)) (old - 1) ltr]) (by omega)
        exact ⟨o, by simp only [grade_bar, ne_eq, hne, not_false_eq_true, if_true, hgt, if_false]; exact ho⟩

/-- The bar-resizing loop of `grade` ends within `BARHT + 1` tests when both
bars come from error estimates in `[0,255]`. -/
theorem grade_bar_errors (e1 e2 : Nat) (h1 : e1 ≤ 255) (h2 : e2 ≤ 255) (ltr : Int)
    (out : List Out) :
    ∃ out1, grade_bar (BARHT + 1) ((BARHT : Int) - barht (e1 : Int))
      ((BARHT : Int) - barht (e2 : Int)) ltr out = some out1 := by
  have hb1 := barht_range e1 h1
  have hb2 := barht_range e2 h2
  apply grade_bar_some
  have : BARHT = 19 := by decide
  rw [this]
  omega

theorem update_spec (w : Nat) (s : State) (l g : Nat) (x : Lt) (h : s.letter[l]? = some x) :
    update w s l g = some ({ s with letter := s.letter.set l { x with error := weight w x.error g % 256 } },
      weight w x.error g % 256) := by
  simp [update, h]

theorem weight_le (w v1 v2 : Nat) (hw : 16 ≤ w) (h1 : v1 ≤ 255) (h2 : v2 ≤ 255) :
    weight w v1 v2 ≤ 255 := by
  rw [weight_eq w v1 v2 hw (by omega)]
  omega

theorem grade_spec (w : Nat) (s : State) (i g : Nat) (x o : Lt) (hw : 16 ≤ w)
    (hx : s.letter[i]? = some x) (ho : s.letter[0]? = some o) (hi : i ≠ 0)
    (hxe : x.error ≤ 255) (hoe : o.error ≤ 255) (hg : g ≤ 255) :
    ∃ out, grade w s i g = some { s with
      letter :=
        if weight w o.error g < 25 then
          ((s.letter.set i { x with error := weight w x.error g }).set 0
            { o with error := weight w o.error g }).set i
              { x with error := weight w (weight w x.error g) g }
        else
          (s.letter.set i { x with error := weight w x.error g }).set 0
            { o with error := weight w o.error g },
      out := out } := by
  have he1 := weight_le w x.error g hw hxe hg
  have ha1 := weight_le w o.error g hw hoe hg
  have he2 := weight_le w (weight w x.error g) g hw he1 hg
  have hilen : i < s.letter.length := (List.getElem?_eq_some.mp hx).1
  have h25 : BAD * 1 / 10 = 25 := by decide
  unfold grade
  simp only [hx, Option.bind_eq_bind, Option.some_bind, update_spec w s i g x hx]
  have h0 : (s.letter.set i { x with error := weight w x.error g % 256 })[0]? = some o := by
    rw [List.getElem?_set_ne hi]; exact ho
  rw [update_spec w _ 0 g o h0]
  simp only [Option.some_bind, h25]
  rw [Nat.mod_eq_of_lt (a := weight w x.error g) (by omega),
    Nat.mod_eq_of_lt (a := weight w o.error g) (by omega)]
  have hi1 : ((s.letter.set i { x with error := weight w x.error g }).set 0
      { o with error := weight w o.error g })[i]? = some { x with error := weight w x.error g } := by
    rw [List.getElem?_set_ne (Ne.symm hi), List.getElem?_set_self hilen]
  by_cases hlow : weight w o.error g < 25
  · simp only [hlow, if_true]
    rw [update_spec w _ i g _ hi1]
    simp only [Option.map_some', Option.some_bind]
    rw [Nat.mod_eq_of_lt (a := weight w (weight w x.error g) g) (by omega)]
    rw [List.getElem?_set_self (by simp only [List.length_set]; exact hilen)]
    obtain ⟨out, hout⟩ := grade_bar_errors (weight w (weight w x.error g) g) x.error he2 hxe
      (umul w (usub w i 1) 2 : Nat) s.out
    exact ⟨out, by simp only [Option.some_bind, hout]; rfl⟩
  · simp only [hlow, if_false]
    rw [hi1]
    obtain ⟨out, hout⟩ := grade_bar_errors (weight w x.error g) x.error he1 hxe
      (umul w (usub w i 1) 2 : Nat) s.out
    exact ⟨out, by simp only [Option.some_bind, hout]; rfl⟩

theorem map_set_same {α : Type} (f : Lt → α) (L : List Lt) (k : Nat) (x y : Lt)
    (h : L[k]? = some x) (hf : f y = f x) : (L.set k y).map f = L.map f := by
  apply List.ext_getElem?
  intro j
  simp only [List.getElem?_map, List.getElem?_set]
  by_cases hkj : k = j
  · subst hkj
    have hlen : k < L.length := (List.getElem?_eq_some.mp h).1
    simp [hlen, h, hf]
  · simp [hkj]

/-- C10: for `i` in `1 .. MAXNUM` and `g` one of `GOOD`, `BAD`, `grade(i, g)`
returns; afterwards the aggregate `letter[0].error` is
`weight(old aggregate, g)`, `letter[i].error` is `weight(e, g)` or
`weight(weight(e, g), g)` for its old value `e`, and the error of every other
symbol `j ≥ 1`, every glyph, every pattern and `num` are unchanged. -/
theorem grade_frame (w : Nat) (s : State) (i g : Nat) (hw : 16 ≤ w) (ht : s.tableOk)
    (hi1 : 1 ≤ i) (hi2 : i ≤ MAXNUM) (hg : g = GOOD ∨ g = BAD) :
    ∃ s1, grade w s i g = some s1 ∧
      errorOf s1 0 = weight w (errorOf s 0) g ∧
      (errorOf s1 i = weight w (errorOf s i) g ∨
        errorOf s1 i = weight w (weight w (errorOf s i) g) g) ∧
      (∀ j, 1 ≤ j → j ≠ i → errorOf s1 j = errorOf s j) ∧
      s1.letter.map Lt.ascii = s.letter.map Lt.ascii ∧
      s1.letter.map Lt.morse = s.letter.map Lt.morse ∧
      s1.num = s.num := by
  obtain ⟨hlen, herr⟩ := ht
  have hilen : i < s.letter.length := by omega
  have h0len : 0 < s.letter.length := by omega
  have hx : s.letter[i]? = some s.letter[i] := List.getElem?_eq_getElem hilen
  have ho : s.letter[0]? = some s.letter[0] := List.getElem?_eq_getElem h0len
  have hi0 : i ≠ 0 := by omega
  have hg255 : g ≤ 255 := by rcases hg with h | h <;> simp [h, GOOD, BAD]
  have hxe := herr _ (List.getElem_mem hilen)
  have hoe := herr _ (List.getElem_mem h0len)
  obtain ⟨out, hgr⟩ := grade_spec w s i g _ _ hw hx ho hi0 hxe hoe hg255
  have hex := errorOf_eq s i _ hx
  have heo := errorOf_eq s 0 _ ho
  have h0 : (s.letter.set i
      ⟨s.letter[i].ascii, s.letter[i].morse, weight w s.letter[i].error g⟩)[0]?
      = some s.letter[0] := by
    rw [List.getElem?_set_ne hi0]; exact ho
  have hi1' : ((s.letter.set i
      ⟨s.letter[i].ascii, s.letter[i].morse, weight w s.letter[i].error g⟩).set 0
      ⟨s.letter[0].ascii, s.letter[0].morse, weight w s.letter[0].error g⟩)[i]?
      = some ⟨s.letter[i].ascii, s.letter[i].morse, weight w s.letter[i].error g⟩ := by
    rw [List.getElem?_set_ne (Ne.symm hi0), List.getElem?_set_self hilen]
  refine ⟨_, hgr, ?_, ?_, ?_, ?_, ?_, rfl⟩
  · rw [heo]
    unfold errorOf
    dsimp only
    split_ifs
    · rw [List.getElem?_set_ne hi0, List.getElem?_set_self (by simpa using h0len)]
    · rw [List.getElem?_set_self (by simpa using h0len)]
  · rw [hex]
    unfold errorOf
    dsimp only
    split_ifs
    · right
      rw [List.getElem?_set_self (by simpa using hilen)]
    · left
      rw [hi1']
  · intro j hj1 hji
    have hj0 : j ≠ 0 := by omega
    unfold errorOf
    dsimp only
    split_ifs
    · rw [List.getElem?_set_ne (Ne.symm hji), List.getElem?_set_ne (Ne.symm hj0),
        List.getElem?_set_ne (Ne.symm hji)]
    · rw [List.getElem?_set_ne (Ne.symm hj0), List.getElem?_set_ne (Ne.symm hji)]
  · dsimp only
    split_ifs
    · rw [map_set_same Lt.ascii _ i _ _ hi1' (by rfl), map_set_same Lt.ascii _ 0 _ _ h0 (by rfl),
        map_set_same Lt.ascii _ i _ _ hx (by rfl)]
    · rw [map_set_same Lt.ascii _ 0 _ _ h0 (by rfl), map_set_same Lt.ascii _ i _ _ hx (by rfl)]
  · dsimp only
    split_ifs
    · rw [map_set_same Lt.morse _ i _ _ hi1' (by rfl), map_set_same Lt.morse _ 0 _ _ h0 (by rfl),
        map_set_same Lt.morse _ i _ _ hx (by rfl)]
    · rw [map_set_same Lt.morse _ 0 _ _ h0 (by rfl), map_set_same Lt.morse _ i _ _ hx (by rfl)]

theorem grade_frame_witness :
    16 ≤ 16 ∧ State.init.tableOk ∧ 1 ≤ 1 ∧ 1 ≤ MAXNUM ∧ (GOOD = GOOD ∨ GOOD = BAD) ∧
      ∃ s1, grade 16 State.init 1 GOOD = some s1 ∧
        errorOf s1 0 = weight 16 (errorOf State.init 0) GOOD ∧
        (errorOf s1 1 = weight 16 (errorOf State.init 1) GOOD ∨
          errorOf s1 1 = weight 16 (weight 16 (errorOf State.init 1) GOOD) GOOD) ∧
        (∀ j, 1 ≤ j → j ≠ 1 → errorOf s1 j = errorOf State.init j) ∧
        s1.letter.map Lt.ascii = State.init.letter.map Lt.ascii ∧
        s1.letter.map Lt.morse = State.init.letter.map Lt.morse ∧
        s1.num = State.init.num :=
  ⟨by decide, by decide, by decide, by decide, Or.inl rfl,
    grade_frame 16 State.init 1 GOOD (by decide) (by decide) (by decide) (by decide) (Or.inl rfl)⟩

/-! ### More on `grade` -/

/-- The effect of `grade(i, g)` on the error estimates and on the rest of
the state, for `i` in `1 .. MAXNUM` and `g ≤ 255`. -/
theorem grade_effect (w : Nat) (s : State) (i g : Nat) (hw : 16 ≤ w) (ht : s.tableOk)
    (hi1 : 1 ≤ i) (hi2 : i ≤ MAXNUM) (hg : g ≤ 255) :
    ∃ s1, grade w s i g = some s1 ∧ s1.tableOk ∧ s1.num = s.num ∧ s1.give = s.give ∧
      s1.dit = s.dit ∧ s1.column = s.column ∧
      errorOf s1 0 = weight w (errorOf s 0) g ∧
      errorOf s1 i = (if weight w (errorOf s 0) g < 25
        then weight w (weight w (errorOf s i) g) g else weight w (errorOf s i) g) ∧
      ∀ j, 1 ≤ j → j ≠ i → errorOf s1 j = errorOf s j := by
  obtain ⟨hlen, herr⟩ := ht
  have hilen : i < s.letter.length := by omega
  have h0len : 0 < s.letter.length := by omega
  have hx : s.letter[i]? = some s.letter[i] := List.getElem?_eq_getElem hilen
  have ho : s.letter[0]? = some s.letter[0] := List.getElem?_eq_getElem h0len
  have hi0 : i ≠ 0 := by omega
  have hxe := herr _ (List.getElem_mem hilen)
  have hoe := herr _ (List.getElem_mem h0len)
  obtain ⟨out, hgr⟩ := grade_spec w s i g _ _ hw hx ho hi0 hxe hoe hg
  have hex := errorOf_eq s i _ hx
  have heo := errorOf_eq s 0 _ ho
  have he1 := weight_le w s.letter[i].error g hw hxe hg
  have ha1 := weight_le w s.letter[0].error g hw hoe hg
  have he2 := weight_le w (weight w s.letter[i].error g) g hw he1 hg
  have hi1' : ((s.letter.set i
      ⟨s.letter[i].ascii, s.letter[i].morse, weight w s.letter[i].error g⟩).set 0
      ⟨s.letter[0].ascii, s.letter[0].morse, weight w s.letter[0].error g⟩)[i]?
      = some ⟨s.letter[i].ascii, s.letter[i].morse, weight w s.letter[i].error g⟩ := by
    rw [List.getElem?_set_ne (Ne.symm hi0), List.getElem?_set_self hilen]
  refine ⟨_, hgr, ⟨?_, ?_⟩, rfl, rfl, rfl, rfl, ?_, ?_, ?_⟩
  · dsimp only
    split_ifs <;> simp only [List.length_set] <;> exact hlen
  · dsimp only
    intro y hy
    split_ifs at hy
    · rcases List.mem_or_eq_of_mem_set hy with hy | rfl
      · rcases List.mem_or_eq_of_mem_set hy with hy | rfl
        · rcases List.mem_or_eq_of_mem_set hy with hy | rfl
          · exact herr y hy
          · exact he1
        · exact ha1
      · exact he2
    · rcases List.mem_or_eq_of_mem_set hy with hy | rfl
      · rcases List.mem_or_eq_of_mem_set hy with hy | rfl
        · exact herr y hy
        · exact he1
      · exact ha1
  · rw [heo]
    unfold errorOf
    dsimp only
    split_ifs
    · rw [List.getElem?_set_ne hi0, List.getElem?_set_self (by simpa using h0len)]
    · rw [List.getElem?_set_self (by simpa using h0len)]
  · rw [hex, heo]
    unfold errorOf
    dsimp only
    split_ifs
    · rw [List.getElem?_set_self (by simpa using hilen)]
    · rw [hi1']
  · intro j hj1 hji
    have hj0 : j ≠ 0 := by omega
    unfold errorOf
    dsimp only
    split_ifs
    · rw [List.getElem?_set_ne (Ne.symm hji), List.getElem?_set_ne (Ne.symm hj0),
        List.getElem?_set_ne (Ne.symm hji)]
    · rw [List.getElem?_set_ne (Ne.symm hj0), List.getElem?_set_ne (Ne.symm hji)]

set_option maxRecDepth 100000 in
/-- C11 (as stated) fails at the boundary: from aggregate 28, `grade(1, GOOD)`
gives the new aggregate 25, for which `10 * 25 < 255`, yet `letter[1].error`
goes from 255 to 223 (one update), not to 195 (two updates). -/
theorem grade_accelerate_counterexample :
    (grade 16 State.nearLow 1 GOOD).map (fun s => (errorOf s 0, errorOf s 1)) = some (25, 223) ∧
      10 * 25 < 255 ∧ errorOf State.nearLow 1 = 255 ∧ weight 16 255 GOOD = 223 ∧
      weight 16 (weight 16 255 GOOD) GOOD = 195 := by
  decide

/-- C11 (amended): the second update of the drilled symbol in `grade` is
applied if and only if the new aggregate is below `BAD * 1/10 = 25` (integer
arithmetic), i.e. iff `10 * (new aggregate) < 250`: with a new aggregate
below 25 the symbol's error is `weight(weight(e, g), g)`, otherwise, also at
the boundary value 25, it is `weight(e, g)`. -/
theorem grade_accelerate (w : Nat) (s : State) (i g : Nat) (hw : 16 ≤ w) (ht : s.tableOk)
    (hi1 : 1 ≤ i) (hi2 : i ≤ MAXNUM) (hg : g = GOOD ∨ g = BAD) :
    BAD * 1 / 10 = 25 ∧
      ∃ s1, grade w s i g = some s1 ∧
        (errorOf s1 0 < 25 ↔ 10 * errorOf s1 0 < 250) ∧
        (errorOf s1 0 < 25 → errorOf s1 i = weight w (weight w (errorOf s i) g) g) ∧
        (¬ errorOf s1 0 < 25 → errorOf s1 i = weight w (errorOf s i) g) := by
  have hg255 : g ≤ 255 := by rcases hg with h | h <;> simp [h, GOOD, BAD]
  obtain ⟨s1, h1, _, _, _, _, _, h0, hi, _⟩ := grade_effect w s i g hw ht hi1 hi2 hg255
  refine ⟨by decide, s1, h1, by omega, ?_, ?_⟩
  · intro hlow
    rw [h0] at hlow
    rw [hi, if_pos hlow]
  · intro hlow
    rw [h0] at hlow
    rw [hi, if_neg hlow]

theorem grade_accelerate_witness :
    16 ≤ 16 ∧ State.nearLow.tableOk ∧ 1 ≤ 1 ∧ 1 ≤ MAXNUM ∧ (GOOD = GOOD ∨ GOOD = BAD) ∧
      (BAD * 1 / 10 = 25 ∧
        ∃ s1, grade 16 State.nearLow 1 GOOD = some s1 ∧
          (errorOf s1 0 < 25 ↔ 10 * errorOf s1 0 < 250) ∧
          (errorOf s1 0 < 25 →
            errorOf s1 1 = weight 16 (weight 16 (errorOf State.nearLow 1) GOOD) GOOD) ∧
          (¬ errorOf s1 0 < 25 → errorOf s1 1 = weight 16 (errorOf State.nearLow 1) GOOD)) :=
  ⟨by decide, by decide, by decide, by decide, Or.inl rfl,
    grade_accelerate 16 State.nearLow 1 GOOD (by decide) (by decide) (by decide) (by decide)
      (Or.inl rfl)⟩

/-! ### The start state -/

/-- C15 (as stated) fails for the aggregate: at startup `letter[0].error` is
`GOOD = 0`, not `BAD = 255`. -/
theorem init_aggregate_counterexample :
    errorOf State.init 0 = 0 ∧ errorOf State.init 0 ≠ BAD := by
  decide

/-- C15 (amended): at startup the table has 36 real symbols (`MAXNUM = 36`,
37 entries with the aggregate), `num` is 2, the error estimate of every real
symbol (indices 1 .. 36) is `BAD = 255`, and the error estimate of the
aggregate at index 0 is `GOOD = 0`. -/
theorem init_state :
    MAXNUM = 36 ∧ State.init.letter.length = 37 ∧ State.init.num = 2 ∧
      State.init.letter.tail.map Lt.error = List.replicate 36 BAD ∧
      errorOf State.init 0 = GOOD ∧ BAD = 255 ∧ GOOD = 0 := by
  decide

/-! ### `barht` -/

/-- C17: for `e ∈ [0,255]`, `barht(e)` is the integer nearest to
`e * BARHT / BAD` with `BARHT = 19` (`|255 * barht(e) - 19 * e| ≤ 127`);
`barht(0) = 0`, `barht(255) = BARHT`, `0 ≤ barht(e) ≤ BARHT`, and `barht` is
non-decreasing: `barht(e) ≤ barht(e2)` for `e ≤ e2 ≤ 255`. -/
theorem barht_nearest (e e2 : Nat) (he : e ≤ e2) (he2 : e2 ≤ 255) :
    BARHT = 19 ∧ |255 * barht (e : Int) - 19 * (e : Int)| ≤ 127 ∧
      barht 0 = 0 ∧ barht 255 = (BARHT : Int) ∧
      0 ≤ barht (e : Int) ∧ barht (e : Int) ≤ (BARHT : Int) ∧
      barht (e : Int) ≤ barht (e2 : Int) := by
  have h2 : Int.tdiv (255 : Int) 2 = 127 := by decide
  have hb : ∀ x : Nat, barht (x : Int) = ((x : Int) * 19 + 127) / 255 := by
    intro x
    unfold barht
    simp only [BARHT, NLINE, BAD]
    norm_num
    rw [h2, Int.tdiv_eq_ediv (by omega) (by omega)]
  have h19 : BARHT = 19 := by decide
  refine ⟨h19, ?_, by decide, by decide, ?_, ?_, ?_⟩
  · rw [hb e, abs_le]
    constructor <;> omega
  · rw [hb e]; omega
  · rw [hb e, h19]; omega
  · rw [hb e, hb e2]; omega

theorem barht_nearest_witness :
    100 ≤ 200 ∧ 200 ≤ 255 ∧
      (BARHT = 19 ∧ |255 * barht ((100 : Nat) : Int) - 19 * ((100 : Nat) : Int)| ≤ 127 ∧
        barht 0 = 0 ∧ barht 255 = (BARHT : Int) ∧
        0 ≤ barht ((100 : Nat) : Int) ∧ barht ((100 : Nat) : Int) ≤ (BARHT : Int) ∧
        barht ((100 : Nat) : Int) ≤ barht ((200 : Nat) : Int)) :=
  ⟨by decide, by decide, barht_nearest 100 200 (by decide) (by decide)⟩

/-! ### The floor of the error estimates -/

/-- One `GOOD` or `BAD` update keeps an estimate in `[4,255]` inside `[4,255]`. -/
theorem weight_keeps_floor (w e g : Nat) (hw : 16 ≤ w) (h4 : 4 ≤ e) (h255 : e ≤ 255)
    (hg : g = GOOD ∨ g = BAD) : 4 ≤ weight w e g ∧ weight w e g ≤ 255 := by
  rcases hg with rfl | rfl
  · rw [weight_eq w e GOOD hw (by simp only [GOOD]; omega)]
    simp only [GOOD]
    omega
  · rw [weight_eq w e BAD hw (by simp only [BAD]; omega)]
    simp only [BAD]
    omega

/-- A valid sequence of `grade` calls, started in a state whose real symbols
all have estimates in `[4,255]`, returns and ends in such a state. -/
theorem grades_keep_floor (w : Nat) (hw : 16 ≤ w) :
    ∀ (calls : List (Nat × Nat)) (s : State), s.tableOk →
      (∀ i, 1 ≤ i → i ≤ MAXNUM → 4 ≤ errorOf s i) →
      (∀ c ∈ calls, 1 ≤ c.1 ∧ c.1 ≤ MAXNUM ∧ (c.2 = GOOD ∨ c.2 = BAD)) →
      ∃ s1, grades w s calls = some s1 ∧ s1.tableOk ∧
        ∀ i, 1 ≤ i → i ≤ MAXNUM → 4 ≤ errorOf s1 i ∧ errorOf s1 i ≤ 255 := by
  intro calls
  induction calls with
  | nil =>
    intro s ht h4 _
    exact ⟨s, rfl, ht, fun i h1 h2 => ⟨h4 i h1 h2, errorOf_le s ht.2 i⟩⟩
  | cons c rest ih =>
    intro s ht h4 hc
    obtain ⟨hc1, hc2, hcg⟩ := hc c (List.mem_cons_self _ _)
    have hg255 : c.2 ≤ 255 := by rcases hcg with h | h <;> simp [h, GOOD, BAD]
    obtain ⟨s1, h1, ht1, _, _, _, _, _, hi, hframe⟩ :=
      grade_effect w s c.1 c.2 hw ht hc1 hc2 hg255
    have h41 : ∀ i, 1 ≤ i → i ≤ MAXNUM → 4 ≤ errorOf s1 i := by
      intro i hi1 hi2
      by_cases hic : i = c.1
      · have ha := weight_keeps_floor w (errorOf s c.1) c.2 hw (h4 c.1 hc1 hc2)
          (errorOf_le s ht.2 c.1) hcg
        have hb := weight_keeps_floor w (weight w (errorOf s c.1) c.2) c.2 hw ha.1 ha.2 hcg
        rw [hic, hi]
        split_ifs
        · exact hb.1
        · exact ha.1
      · rw [hframe i hi1 hic]
        exact h4 i hi1 hi2
    obtain ⟨s2, h2, ht2, hfin⟩ := ih s1 ht1 h41
      (fun c' hc' => hc c' (List.mem_cons_of_mem _ hc'))
    refine ⟨s2, ?_, ht2, hfin⟩
    obtain ⟨ci, cg⟩ := c
    simp only [grades]
    simp only at h1
    rw [h1]
    exact h2

/-- C20: in every state reached from the initial table by a sequence of
`grade(i, g)` calls with `i` in `1 .. 36` and `g` one of `GOOD`, `BAD` (every
such sequence returns), every real symbol has `4 ≤ letter[i].error ≤ 255`, so
its selection weight `error + 1` is at least 5; 4 is a fixed point of
`weight(., GOOD)`. -/
theorem real_errors_at_least_four (w : Nat) (calls : List (Nat × Nat)) (hw : 16 ≤ w)
    (hc : ∀ c ∈ calls, 1 ≤ c.1 ∧ c.1 ≤ 36 ∧ (c.2 = GOOD ∨ c.2 = BAD)) :
    weight w 4 GOOD = 4 ∧
      ∃ s1, grades w State.init calls = some s1 ∧
        ∀ i, 1 ≤ i → i ≤ 36 →
          4 ≤ errorOf s1 i ∧ errorOf s1 i ≤ 255 ∧ 5 ≤ errorOf s1 i + 1 := by
  have hinit : ∀ i, 1 ≤ i → i ≤ MAXNUM → 4 ≤ errorOf State.init i := by
    intro i h1 h2
    rw [MAXNUM_eq] at h2
    interval_cases i <;> decide
  obtain ⟨s1, h1, _, hfin⟩ := grades_keep_floor w hw calls State.init (by decide) hinit
    (by rw [MAXNUM_eq]; exact hc)
  refine ⟨?_, s1, h1, ?_⟩
  · rw [weight_eq w 4 GOOD hw (by simp only [GOOD]; omega)]
    simp only [GOOD]
  · intro i hi1 hi2
    have := hfin i hi1 (by rw [MAXNUM_eq]; exact hi2)
    omega

theorem real_errors_at_least_four_witness :
    16 ≤ 16 ∧
      (∀ c ∈ [(1, GOOD), (2, BAD), (1, GOOD)], 1 ≤ c.1 ∧ c.1 ≤ 36 ∧ (c.2 = GOOD ∨ c.2 = BAD)) ∧
      (weight 16 4 GOOD = 4 ∧
        ∃ s1, grades 16 State.init [(1, GOOD), (2, BAD), (1, GOOD)] = some s1 ∧
          ∀ i, 1 ≤ i → i ≤ 36 →
            4 ≤ errorOf s1 i ∧ errorOf s1 i ≤ 255 ∧ 5 ≤ errorOf s1 i + 1) :=
  ⟨by decide, by decide,
    real_errors_at_least_four 16 [(1, GOOD), (2, BAD), (1, GOOD)] (by decide) (by decide)⟩

/-! ### `send` -/

theorem encode_ge_one : ∀ ms : List Mark, 1 ≤ encode ms
  | [] => le_refl _
  | m :: ms => by
    have := encode_ge_one ms
    simp only [encode]
    split_ifs <;> omega

/-- The loop of `send` on the pattern byte of a non-empty sequence of marks
emits exactly these marks and ends, given one unit of fuel per mark. -/
theorem send_loop_encode (dit : Nat) :
    ∀ (ms : List Mark) (m : Mark) (fuel : Nat) (out : List Out), ms.length < fuel →
      send_loop dit fuel (encode (m :: ms)) out = some (out ++ emit dit (m :: ms)) := by
  intro ms
  induction ms with
  | nil =>
    intro m fuel out hf
    obtain ⟨f, rfl⟩ : ∃ f, fuel = f + 1 := ⟨fuel - 1, by simp at hf; omega⟩
    cases m <;> simp [send_loop, encode, emit]
  | cons m2 ms ih =>
    intro m fuel out hf
    obtain ⟨f, rfl⟩ : ∃ f, fuel = f + 1 := ⟨fuel - 1, by simp at hf; omega⟩
    have hge := encode_ge_one ms
    have h2 : 2 ≤ encode (m2 :: ms) := by
      simp only [encode]
      split_ifs <;> omega
    have hmod : encode (m :: m2 :: ms) % 2 = (if m = Mark.dah then 1 else 0) := by
      rw [encode]
      split_ifs <;> omega
    have hdiv : encode (m :: m2 :: ms) / 2 = encode (m2 :: ms) := by
      rw [encode]
      split_ifs <;> omega
    have hne : encode (m2 :: ms) ≠ 1 := by omega
    rw [send_loop]
    simp only [hdiv, hne, ne_eq, not_false_eq_true, if_true, hmod]
    rw [ih m2 f _ (by simp at hf; omega)]
    cases m <;> simp [emit]

/-- The `send` routine on the pattern byte of between 1 and 8 marks returns
and appends exactly the tones and silences of these marks to the output. -/
theorem send_encode (s : State) (ms : List Mark) (h1 : 1 ≤ ms.length) (h8 : ms.length ≤ 8) :
    send s (encode ms) = some { s with out := s.out ++ emit s.dit ms } := by
  cases ms with
  | nil => simp at h1
  | cons m ms =>
    unfold send
    rw [send_loop_encode s.dit ms m 8 s.out (by simp at h8; omega)]
    rfl

set_option maxRecDepth 100000 in
/-- Every real entry of the table carries the pattern byte of the
International Morse code of its glyph, which has between 1 and 5 marks. -/
theorem table_is_itu :
    ∀ x ∈ letter.tail,
      x.morse = encode (itu x.ascii) ∧ 1 ≤ (itu x.ascii).length ∧ (itu x.ascii).length ≤ 5 := by
  decide

/-- C19: for every real symbol `letter[i]`, `1 ≤ i ≤ 36`, the pattern is the
International Morse code of the glyph written least significant bit first
(`dah` = 1, `dit` = 0) under a stop bit, of 1 to 5 marks; `send` on it returns
and emits exactly these marks, each as a tone of `dit` (dit) or `3 * dit` (dah)
followed by a silence of `dit`; the 36 glyphs are pairwise distinct and so
are the 36 patterns. -/
theorem send_is_morse (s : State) (i : Nat) (hi1 : 1 ≤ i) (hi2 : i ≤ 36) :
    ∃ x, letter[i]? = some x ∧ x.morse = encode (itu x.ascii) ∧
      1 ≤ (itu x.ascii).length ∧ (itu x.ascii).length ≤ 5 ∧
      send s x.morse = some { s with out := s.out ++ emit s.dit (itu x.ascii) } ∧
      (letter.tail.map Lt.ascii).Nodup ∧ (letter.tail.map Lt.morse).Nodup := by
  have hlen : letter.length = 37 := by decide
  have hilen : i < letter.length := by omega
  have hmem : letter[i] ∈ letter.tail := by
    obtain ⟨k, rfl⟩ : ∃ k, i = k + 1 := ⟨i - 1, by omega⟩
    rw [List.mem_iff_getElem?]
    exact ⟨k, by rw [List.getElem?_tail, List.getElem?_eq_getElem hilen]⟩
  obtain ⟨hm, hl1, hl5⟩ := table_is_itu _ hmem
  refine ⟨letter[i], List.getElem?_eq_getElem hilen, hm, hl1, hl5, ?_, by decide, by decide⟩
  rw [hm]
  exact send_encode s _ hl1 (by omega)

theorem send_is_morse_witness :
    1 ≤ 1 ∧ 1 ≤ 36 ∧
      ∃ x, letter[1]? = some x ∧ x.morse = encode (itu x.ascii) ∧
        1 ≤ (itu x.ascii).length ∧ (itu x.ascii).length ≤ 5 ∧
        send State.init x.morse
          = some { State.init with out := State.init.out ++ emit State.init.dit (itu x.ascii) } ∧
        (letter.tail.map Lt.ascii).Nodup ∧ (letter.tail.map Lt.morse).Nodup :=
  ⟨by decide, by decide, send_is_morse State.init 1 (by decide) (by decide)⟩

/-! ### `teach` -/

/-- The count of timed-out presentations never decreases in the course of
the loops, and the state in which they end is the state in which they were
entered when the count has not moved. -/
theorem drill_timeouts_mono (w : Nat) (x : Lt) :
    ∀ keys : List Nat,
      (∀ (s : State) (n : Nat) (ticks : List Nat),
        (∀ s1 m t ks ts, drill_flush w x s n keys ticks = DrillEnd.answered s1 m t ks ts →
          n ≤ m ∧ (m = n → s1 = s)) ∧
        (∀ s1 m ks ts, drill_flush w x s n keys ticks = DrillEnd.broke s1 m ks ts →
          n ≤ m ∧ (m = n → s1 = s))) ∧
      (∀ (s : State) (n time : Nat) (ticks : List Nat),
        (∀ s1 m t ks ts, drill_wait w x s n time keys ticks = DrillEnd.answered s1 m t ks ts →
          n ≤ m ∧ (m = n → s1 = s)) ∧
        (∀ s1 m ks ts, drill_wait w x s n time keys ticks = DrillEnd.broke s1 m ks ts →
          n ≤ m ∧ (m = n → s1 = s))) := by
  intro keys
  induction keys with
  | nil =>
    constructor
    · intro s n ticks
      simp [drill_flush]
    · intro s n time ticks
      simp [drill_wait]
  | cons k ks ih =>
    obtain ⟨ihf, ihw⟩ := ih
    constructor
    · intro s n ticks
      simp only [drill_flush]
      by_cases hk0 : k ≠ 0
      · simp only [if_pos hk0]
        by_cases hkr : k = '\r'.toNat
        · simp only [hkr, if_true]
          constructor
          · intro s1 m t ks1 ts1 h
            exact absurd h (by simp)
          · intro s1 m ks1 ts1 h
            simp only [DrillEnd.broke.injEq] at h
            obtain ⟨h1, h2, _, _⟩ := h
            subst h1 h2
            exact ⟨le_refl _, fun _ => rfl⟩
        · simp only [hkr, if_false]
          exact ihf s n ticks
      · simp only [if_neg hk0]
        cases ticks with
        | nil => simp
        | cons t ts => exact ihw s n 0 ts
    · intro s n time ticks
      simp only [drill_wait]
      by_cases hka : k = x.ascii.toNat
      · simp only [hka, if_true]
        constructor
        · intro s1 m t ks1 ts1 h
          simp only [DrillEnd.answered.injEq] at h
          obtain ⟨h1, h2, _, _, _⟩ := h
          subst h1 h2
          exact ⟨le_refl _, fun _ => rfl⟩
        · intro s1 m ks1 ts1 h
          exact absurd h (by simp)
      · simp only [hka, if_false]
        by_cases hkr : k = '\r'.toNat
        · simp only [hkr, if_true]
          constructor
          · intro s1 m t ks1 ts1 h
            exact absurd h (by simp)
          · intro s1 m ks1 ts1 h
            simp only [DrillEnd.broke.injEq] at h
            obtain ⟨h1, h2, _, _⟩ := h
            subst h1 h2
            exact ⟨le_refl _, fun _ => rfl⟩
        · simp only [hkr, if_false]
          cases ticks with
          | nil => simp
          | cons t ts =>
            dsimp only
            by_cases hle : uadd w time t ≤ s.give
            · simp only [hle, if_true]
              exact ihw s n (uadd w time t) ts
            · simp only [hle, if_false]
              cases hp : teach_present (teach_echo w s x (uadd w time t)) x with
              | none => simp
              | some s1 =>
                dsimp only
                obtain ⟨ha, hb⟩ := ihf s1 (n + 1) ts
                constructor
                · intro s2 m t2 ks1 ts1 h
                  have := (ha s2 m t2 ks1 ts1 h).1
                  exact ⟨by omega, fun hm => by omega⟩
                · intro s2 m ks1 ts1 h
                  have := (hb s2 m ks1 ts1 h).1
                  exact ⟨by omega, fun hm => by omega⟩

/-- The score handed on by the loops of `teach` is the score they were
entered with while no presentation has timed out since, and `BAD` afterwards;
`teach_flush` and `teach_wait` return what `DrillEnd.result` gives for the
way the loops end. -/
theorem teach_eq_drill (w lesson : Nat) (x : Lt) :
    ∀ keys : List Nat,
      (∀ (score : Nat) (s : State) (n : Nat) (ticks : List Nat),
        teach_flush w lesson x score s keys ticks
          = (drill_flush w x s n keys ticks).result w lesson x
              (if (drill_flush w x s n keys ticks).timeouts = n then score else BAD)) ∧
      (∀ (score : Nat) (s : State) (n time : Nat) (ticks : List Nat),
        teach_wait w lesson x score s time keys ticks
          = (drill_wait w x s n time keys ticks).result w lesson x
              (if (drill_wait w x s n time keys ticks).timeouts = n then score else BAD)) := by
  intro keys
  induction keys with
  | nil =>
    constructor
    · intro score s n ticks
      simp [teach_flush, drill_flush, DrillEnd.result]
    · intro score s n time ticks
      simp [teach_wait, drill_wait, DrillEnd.result]
  | cons k ks ih =>
    obtain ⟨ihf, ihw⟩ := ih
    constructor
    · intro score s n ticks
      simp only [teach_flush, drill_flush]
      by_cases hk0 : k ≠ 0
      · simp only [if_pos hk0]
        by_cases hkr : k = '\r'.toNat
        · simp [hkr, DrillEnd.result]
        · simp only [hkr, if_false]
          exact ihf score s n ticks
      · simp only [if_neg hk0]
        cases ticks with
        | nil => simp [DrillEnd.result]
        | cons t ts => exact ihw score s n 0 ts
    · intro score s n time ticks
      simp only [teach_wait, drill_wait]
      by_cases hka : k = x.ascii.toNat
      · simp [hka, DrillEnd.result, DrillEnd.timeouts]
      · simp only [hka, if_false]
        by_cases hkr : k = '\r'.toNat
        · simp [hkr, DrillEnd.result]
        · simp only [hkr, if_false]
          cases ticks with
          | nil => simp [DrillEnd.result]
          | cons t ts =>
            dsimp only
            by_cases hle : uadd w time t ≤ s.give
            · simp only [hle, if_true]
              exact ihw score s n (uadd w time t) ts
            · simp only [hle, if_false]
              cases hp : teach_present (teach_echo w s x (uadd w time t)) x with
              | none => simp [DrillEnd.result]
              | some s1 =>
                dsimp only
                rw [ihf BAD s1 (n + 1) ts]
                obtain ⟨ha, hb⟩ := (drill_timeouts_mono w x ks).1 s1 (n + 1) ts
                cases hd : drill_flush w x s1 (n + 1) ks ts with
                | answered s2 m t2 ks1 ts1 =>
                  have := (ha s2 m t2 ks1 ts1 hd).1
                  have hne : m ≠ n := by omega
                  simp [DrillEnd.result, DrillEnd.timeouts, hne]
                | broke s2 m ks1 ts1 => simp [DrillEnd.result]
                | starved => simp [DrillEnd.result]
                | fault => simp [DrillEnd.result]

/-- A property of the state that every end of a pass (`teach_echo`) and every
start of a pass (`teach_present`) preserves holds in the state in which the
loops of `teach` end. -/
theorem drill_invariant (w : Nat) (x : Lt) (P : State → Prop)
    (hecho : ∀ s t, P s → P (teach_echo w s x t))
    (hpres : ∀ s s1, P s → teach_present s x = some s1 → P s1) :
    ∀ keys : List Nat,
      (∀ (s : State) (n : Nat) (ticks : List Nat), P s →
        (∀ s1 m t ks ts, drill_flush w x s n keys ticks = DrillEnd.answered s1 m t ks ts → P s1) ∧
        (∀ s1 m ks ts, drill_flush w x s n keys ticks = DrillEnd.broke s1 m ks ts → P s1)) ∧
      (∀ (s : State) (n time : Nat) (ticks : List Nat), P s →
        (∀ s1 m t ks ts,
          drill_wait w x s n time keys ticks = DrillEnd.answered s1 m t ks ts → P s1) ∧
        (∀ s1 m ks ts, drill_wait w x s n time keys ticks = DrillEnd.broke s1 m ks ts → P s1)) := by
  intro keys
  induction keys with
  | nil =>
    constructor
    · intro s n ticks _
      simp [drill_flush]
    · intro s n time ticks _
      simp [drill_wait]
  | cons k ks ih =>
    obtain ⟨ihf, ihw⟩ := ih
    constructor
    · intro s n ticks hP
      simp only [drill_flush]
      by_cases hk0 : k ≠ 0
      · simp only [if_pos hk0]
        by_cases hkr : k = '\r'.toNat
        · simp only [hkr, if_true]
          constructor
          · intro s1 m t ks1 ts1 h
            exact absurd h (by simp)
          · intro s1 m ks1 ts1 h
            simp only [DrillEnd.broke.injEq] at h
            obtain ⟨h1, _, _, _⟩ := h
            subst h1
            exact hP
        · simp only [hkr, if_false]
          exact ihf s n ticks hP
      · simp only [if_neg hk0]
        cases ticks with
        | nil => simp
        | cons t ts => exact ihw s n 0 ts hP
    · intro s n time ticks hP
      simp only [drill_wait]
      by_cases hka : k = x.ascii.toNat
      · simp only [hka, if_true]
        constructor
        · intro s1 m t ks1 ts1 h
          simp only [DrillEnd.answered.injEq] at h
          obtain ⟨h1, _, _, _, _⟩ := h
          subst h1
          exact hP
        · intro s1 m ks1 ts1 h
          exact absurd h (by simp)
      · simp only [hka, if_false]
        by_cases hkr : k = '\r'.toNat
        · simp only [hkr, if_true]
          constructor
          · intro s1 m t ks1 ts1 h
            exact absurd h (by simp)
          · intro s1 m ks1 ts1 h
            simp only [DrillEnd.broke.injEq] at h
            obtain ⟨h1, _, _, _⟩ := h
            subst h1
            exact hP
        · simp only [hkr, if_false]
          cases ticks with
          | nil => simp
          | cons t ts =>
            dsimp only
            by_cases hle : uadd w time t ≤ s.give
            · simp only [hle, if_true]
              exact ihw s n (uadd w time t) ts hP
            · simp only [hle, if_false]
              cases hp : teach_present (teach_echo w s x (uadd w time t)) x with
              | none => simp
              | some s1 =>
                dsimp only
                exact ihf s1 (n + 1) ts (hpres _ s1 (hecho s _ hP) hp)

/-- The `send` routine changes nothing but the output log. -/
theorem send_frame (s s1 : State) (code : Nat) (h : send s code = some s1) :
    s1.letter = s.letter ∧ s1.num = s.num ∧ s1.give = s.give ∧ s1.dit = s.dit ∧
      s1.column = s.column := by
  unfold send at h
  cases hl : send_loop s.dit 8 code s.out with
  | none => rw [hl] at h; simp at h
  | some out =>
    rw [hl] at h
    simp only [Option.map_some', Option.some.injEq] at h
    subst h
    exact ⟨rfl, rfl, rfl, rfl, rfl⟩

/-- The start of a pass changes neither the table, `num`, `give` nor `dit`. -/
theorem teach_present_frame (s s1 : State) (x : Lt) (h : teach_present s x = some s1) :
    s1.letter = s.letter ∧ s1.num = s.num ∧ s1.give = s.give ∧ s1.dit = s.dit := by
  unfold teach_present at h
  obtain ⟨h1, h2, h3, h4, _⟩ := send_frame _ s1 x.morse h
  refine ⟨?_, ?_, ?_, ?_⟩
  · rw [h1]; split_ifs <;> rfl
  · rw [h2]; split_ifs <;> rfl
  · rw [h3]; split_ifs <;> rfl
  · rw [h4]; split_ifs <;> rfl

/-- The bar-drawing routine changes nothing but the output log. -/
theorem drwbar_frame (s s1 : State) (c : Nat) (h : drwbar s c = some s1) :
    s1.letter = s.letter ∧ s1.num = s.num ∧ s1.give = s.give ∧ s1.dit = s.dit ∧
      s1.column = s.column := by
  unfold drwbar at h
  simp only [Option.bind_eq_bind, Option.bind_eq_some, Option.pure_def, Option.some.injEq] at h
  obtain ⟨x, _, out, _, rfl⟩ := h
  exact ⟨rfl, rfl, rfl, rfl, rfl⟩

/-- Whenever `add_ltr` returns it has changed neither the table nor `give`. -/
theorem add_ltr_frame (w : Nat) (s s1 : State) (h : add_ltr w s = some s1) :
    s1.letter = s.letter ∧ s1.give = s.give := by
  unfold add_ltr at h
  split_ifs at h
  · obtain ⟨h1, _, h3, _, _⟩ := drwbar_frame _ s1 _ h
    exact ⟨h1, h3⟩
  · simp only [Option.some.injEq] at h
    subst h
    exact ⟨rfl, rfl⟩

/-- Whenever `rem_ltr` returns it has changed neither the table nor `give`. -/
theorem rem_ltr_frame (w : Nat) (s s1 : State) (h : rem_ltr w s = some s1) :
    s1.letter = s.letter ∧ s1.give = s.give := by
  unfold rem_ltr at h
  split_ifs at h
  · obtain ⟨h1, _, h3, _, _⟩ := drwbar_frame _ s1 _ h
    exact ⟨h1, h3⟩
  · simp only [Option.some.injEq] at h
    subst h
    exact ⟨rfl, rfl⟩

/-- Whenever the check at the end of `teach` returns it has changed neither
the table nor `give`. -/
theorem teach_check_frame (w : Nat) (s s1 : State) (h : teach_check w s = some s1) :
    s1.letter = s.letter ∧ s1.give = s.give := by
  unfold teach_check at h
  cases ho : s.letter[0]? with
  | none => rw [ho] at h; simp at h
  | some o =>
    rw [ho] at h
    dsimp only at h
    split_ifs at h
    · simp only [Option.some.injEq] at h
      subst h
      exact ⟨rfl, rfl⟩
    · cases hsc : teach_scan s s.num with
      | none => rw [hsc] at h; simp at h
      | some b =>
        rw [hsc] at h
        cases b with
        | true =>
          simp only [Option.some.injEq] at h
          subst h
          exact ⟨rfl, rfl⟩
        | false => exact add_ltr_frame w s s1 h

/-- Whenever `update` returns it has changed nothing but the table. -/
theorem update_frame (w : Nat) (s s1 : State) (l g v : Nat) (h : update w s l g = some (s1, v)) :
    s1.num = s.num ∧ s1.give = s.give ∧ s1.dit = s.dit ∧ s1.column = s.column ∧
      s1.out = s.out := by
  unfold update at h
  cases hl : s.letter[l]? with
  | none => rw [hl] at h; simp at h
  | some x =>
    rw [hl] at h
    simp only [Option.some.injEq, Prod.mk.injEq] at h
    obtain ⟨rfl, _⟩ := h
    exact ⟨rfl, rfl, rfl, rfl, rfl⟩

/-- Whenever `grade` returns it has changed neither `num` nor `give`. -/
theorem grade_keeps_give (w : Nat) (s s1 : State) (i g : Nat) (h : grade w s i g = some s1) :
    s1.num = s.num ∧ s1.give = s.give := by
  unfold grade at h
  simp only [Option.bind_eq_bind, Option.bind_eq_some, Option.pure_def, Option.some.injEq] at h
  obtain ⟨x, _, ⟨sa, va⟩, ha, ⟨sb, vb⟩, hb, h⟩ := h
  have fa := update_frame w s sa i g va ha
  have fb := update_frame w sa sb 0 g vb hb
  dsimp only at h
  split_ifs at h
  · simp only [Option.bind_eq_some, Option.map_eq_some', Option.some.injEq] at h
    obtain ⟨sc, ⟨⟨sd, vd⟩, hd, rfl⟩, y, _, out, _, rfl⟩ := h
    have fd := update_frame w sb sd i g vd hd
    exact ⟨by show sd.num = s.num; rw [fd.1, fb.1, fa.1],
      by show sd.give = s.give; rw [fd.2.1, fb.2.1, fa.2.1]⟩
  · simp only [Option.bind_eq_some, Option.some.injEq] at h
    obtain ⟨sc, rfl, y, _, out, _, rfl⟩ := h
    exact ⟨by show sb.num = s.num; rw [fb.1, fa.1],
      by show sb.give = s.give; rw [fb.2.1, fa.2.1]⟩

/-- The function `teach` returns what `DrillEnd.result` gives for the way its
loops end, with the outcome `GOOD` when no presentation timed out and `BAD`
otherwise. -/
theorem teach_eq_result (w : Nat) (s : State) (lesson : Nat) (x : Lt) (keys ticks : List Nat)
    (hx : s.letter[lesson]? = some x) :
    teach w s lesson keys ticks
      = (drill w s lesson keys ticks).result w lesson x
          (if (drill w s lesson keys ticks).timeouts = 0 then GOOD else BAD) := by
  unfold teach drill
  rw [hx]
  dsimp only
  cases hp : teach_present s x with
  | none => simp [DrillEnd.result]
  | some s1 =>
    dsimp only
    exact (teach_eq_drill w lesson x keys).1 GOOD s1 0 ticks

/-- The loops of `teach` end in a state with the table and `num` of the state
in which `teach` was called. -/
theorem drill_keeps_curriculum (w : Nat) (s : State) (lesson : Nat) (keys ticks : List Nat) :
    (∀ s1 m t ks ts, drill w s lesson keys ticks = DrillEnd.answered s1 m t ks ts →
      s1.letter = s.letter ∧ s1.num = s.num) ∧
    (∀ s1 m ks ts, drill w s lesson keys ticks = DrillEnd.broke s1 m ks ts →
      s1.letter = s.letter ∧ s1.num = s.num) := by
  unfold drill
  cases hx : s.letter[lesson]? with
  | none => simp
  | some x =>
    dsimp only
    cases hp : teach_present s x with
    | none => simp
    | some s0 =>
      dsimp only
      have h0 := teach_present_frame s s0 x hp
      exact (drill_invariant w x (fun s1 => s1.letter = s.letter ∧ s1.num = s.num)
        (fun _ _ h => h)
        (fun a b h hb => by
          have := teach_present_frame a b x hb
          exact ⟨this.1.trans h.1, this.2.1.trans h.2⟩)
        keys).1 s0 0 ticks ⟨h0.1, h0.2.1⟩

/-- C12: for every index and every record of input on which `teach` leaves
its loops through the break key (in the typeahead flush or in the wait loop,
after any number `n` of timed-out presentations), `teach` returns 0 and the
table `letter[]` (every error estimate, the aggregate included) and `num` are
those of the state in which `teach` was called. -/
theorem teach_abort_keeps_curriculum (w : Nat) (s : State) (lesson : Nat)
    (keys ticks : List Nat) (s1 : State) (n : Nat) (ks ts : List Nat)
    (h : drill w s lesson keys ticks = DrillEnd.broke s1 n ks ts) :
    ∃ s2, teach w s lesson keys ticks = TeachResult.done 0 s2 ks ts ∧
      s2.letter = s.letter ∧ s2.num = s.num ∧
      ∀ i, errorOf s2 i = errorOf s i := by
  have hkeep := (drill_keeps_curriculum w s lesson keys ticks).2 s1 n ks ts h
  cases hx : s.letter[lesson]? with
  | none =>
    unfold drill at h
    rw [hx] at h
    exact absurd h (by simp)
  | some x =>
    refine ⟨{ s1 with column := 0 }, ?_, hkeep.1, hkeep.2, ?_⟩
    · rw [teach_eq_result w s lesson x keys ticks hx, h]
      rfl
    · intro i
      unfold errorOf
      show (match s1.letter[i]? with | some x => x.error | none => 0) = _
      rw [hkeep.1]

set_option maxRecDepth 100000 in
theorem teach_abort_keeps_curriculum_witness :
    drill 16 State.init 1 [65, 0, 0, 0, 13] [5, 4000, 1]
        = DrillEnd.broke (drill 16 State.init 1 [65, 0, 0, 0, 13] [5, 4000, 1]).state 1 [] [] ∧
      ∃ s2, teach 16 State.init 1 [65, 0, 0, 0, 13] [5, 4000, 1] = TeachResult.done 0 s2 [] [] ∧
        s2.letter = State.init.letter ∧ s2.num = State.init.num ∧
        ∀ i, errorOf s2 i = errorOf State.init i :=
  ⟨by decide,
    teach_abort_keeps_curriculum 16 State.init 1 [65, 0, 0, 0, 13] [5, 4000, 1]
      (drill 16 State.init 1 [65, 0, 0, 0, 13] [5, 4000, 1]).state 1 [] [] (by decide)⟩

set_option maxRecDepth 100000 in
/-- C13 (as stated) fails after a timed-out presentation: from the start
state (`give = 3500`), with no key for 4000 ms the first presentation times
out and `give` becomes 4063; the break key pressed while the second
presentation awaits the response makes `teach` return 0 with `give = 4063`. -/
theorem teach_abort_give_counterexample :
    drill 16 State.init 1 [0, 0, 0, 13] [5, 4000, 1]
        = DrillEnd.broke (drill 16 State.init 1 [0, 0, 0, 13] [5, 4000, 1]).state 1 [] [] ∧
      (teach 16 State.init 1 [0, 0, 0, 13] [5, 4000, 1]).final.map
        (fun p => (p.1, p.2.give)) = some (0, 4063) ∧
      State.init.give = 3500 := by
  decide

/-- C13 (amended): for every record of input on which `teach` leaves its
loops through the break key before any presentation has timed out, `teach`
returns 0 and `give` is what it was when `teach` was called. -/
theorem teach_abort_keeps_give (w : Nat) (s : State) (lesson : Nat)
    (keys ticks : List Nat) (s1 : State) (ks ts : List Nat)
    (h : drill w s lesson keys ticks = DrillEnd.broke s1 0 ks ts) :
    ∃ s2, teach w s lesson keys ticks = TeachResult.done 0 s2 ks ts ∧ s2.give = s.give := by
  cases hx : s.letter[lesson]? with
  | none =>
    unfold drill at h
    rw [hx] at h
    exact absurd h (by simp)
  | some x =>
    refine ⟨{ s1 with column := 0 }, ?_, ?_⟩
    · rw [teach_eq_result w s lesson x keys ticks hx, h]
      rfl
    · unfold drill at h
      rw [hx] at h
      dsimp only at h
      cases hp : teach_present s x with
      | none => rw [hp] at h; exact absurd h (by simp)
      | some s0 =>
        rw [hp] at h
        dsimp only at h
        have := ((drill_timeouts_mono w x keys).1 s0 0 ticks).2 s1 0 ks ts h
        have hs : s1 = s0 := this.2 rfl
        show s1.give = s.give
        rw [hs]
        exact (teach_present_frame s s0 x hp).2.2.1

set_option maxRecDepth 100000 in
theorem teach_abort_keeps_give_witness :
    drill 16 State.init 1 [65, 0, 0, 13] [5, 3000]
        = DrillEnd.broke (drill 16 State.init 1 [65, 0, 0, 13] [5, 3000]).state 0 [] [] ∧
      ∃ s2, teach 16 State.init 1 [65, 0, 0, 13] [5, 3000] = TeachResult.done 0 s2 [] [] ∧
        s2.give = State.init.give :=
  ⟨by decide,
    teach_abort_keeps_give 16 State.init 1 [65, 0, 0, 13] [5, 3000]
      (drill 16 State.init 1 [65, 0, 0, 13] [5, 3000]).state [] [] (by decide)⟩

/-- The end of a pass leaves `give` at most 6000, whatever it was. -/
theorem teach_echo_give_le (w : Nat) (s : State) (x : Lt) (t : Nat) :
    (teach_echo w s x t).give ≤ 6000 := by
  unfold teach_echo
  dsimp only
  split_ifs <;> omega

/-- Whenever `teach` returns from a state with `give ≤ 6000` it leaves
`give ≤ 6000`. -/
theorem teach_give_le (w : Nat) (s : State) (lesson : Nat) (keys ticks : List Nat) (ret : Int)
    (s1 : State) (ks ts : List Nat) (hg : s.give ≤ 6000)
    (h : teach w s lesson keys ticks = TeachResult.done ret s1 ks ts) : s1.give ≤ 6000 := by
  cases hx : s.letter[lesson]? with
  | none =>
    unfold teach at h
    rw [hx] at h
    exact absurd h (by simp)
  | some x =>
    rw [teach_eq_result w s lesson x keys ticks hx] at h
    have hinv : ∀ d, drill w s lesson keys ticks = d →
        (∀ sa m t ka ta, d = DrillEnd.answered sa m t ka ta → sa.give ≤ 6000) ∧
        (∀ sa m ka ta, d = DrillEnd.broke sa m ka ta → sa.give ≤ 6000) := by
      intro d hd
      subst hd
      unfold drill
      rw [hx]
      dsimp only
      cases hp : teach_present s x with
      | none => simp
      | some s0 =>
        dsimp only
        exact (drill_invariant w x (fun sa => sa.give ≤ 6000)
          (fun a t _ => teach_echo_give_le w a x t)
          (fun a b ha hb => by
            have := teach_present_frame a b x hb
            show b.give ≤ 6000
            rw [this.2.2.1]
            exact ha)
          keys).1 s0 0 ticks (by
            show s0.give ≤ 6000
            rw [(teach_present_frame s s0 x hp).2.2.1]
            exact hg)
    cases hd : drill w s lesson keys ticks with
    | answered sa m t ka ta =>
      rw [hd] at h
      simp only [DrillEnd.result, teach_finish] at h
      cases hgr : grade w (teach_echo w sa x t) lesson
          (if (DrillEnd.answered sa m t ka ta).timeouts = 0 then GOOD else BAD) with
      | none => rw [hgr] at h; exact absurd h (by simp)
      | some sb =>
        rw [hgr] at h
        dsimp only at h
        cases hch : teach_check w sb with
        | none => rw [hch] at h; exact absurd h (by simp)
        | some sc =>
          rw [hch] at h
          simp only [TeachResult.done.injEq] at h
          obtain ⟨_, rfl, _, _⟩ := h
          rw [(teach_check_frame w sb sc hch).2, (grade_keeps_give w _ sb _ _ hgr).2]
          exact teach_echo_give_le w sa x t
    | broke sa m ka ta =>
      rw [hd] at h
      simp only [DrillEnd.result, TeachResult.done.injEq] at h
      obtain ⟨_, rfl, _, _⟩ := h
      exact (hinv _ hd).2 sa m ka ta rfl
    | starved => rw [hd] at h; exact absurd h (by simp [DrillEnd.result])
    | fault => rw [hd] at h; exact absurd h (by simp [DrillEnd.result])

/-- In every reachable state `give ≤ 6000`. -/
theorem reach_give_le (w : Nat) (s : State) (hr : Reach w s) : s.give ≤ 6000 := by
  induction hr with
  | init => decide
  | teach s lesson keys ticks ret s1 ks ts _ h ih =>
    exact teach_give_le w s lesson keys ticks ret s1 ks ts ih h
  | add s s1 _ h ih => rw [(add_ltr_frame w s s1 h).2]; exact ih
  | rem s s1 _ h ih => rw [(rem_ltr_frame w s s1 h).2]; exact ih
  | speed s d _ ih => exact ih

set_option maxRecDepth 100000 in
/-- C14 (as stated) fails for long measured times, where `7*give + 2*t + 4`
does not fit the machine word: with 16-bit `unsigned`, `give = 3500` and a
presentation timing out at `t = 20516`, `give` becomes 0 and not
`min(6000, floor((7*3500 + 2*20516 + 4)/8)) = 6000`, and stays 0 when the
drill is then completed; with 32-bit `unsigned` and `t = 2^31` it becomes
3063. -/
theorem give_update_counterexample :
    State.init.give = 3500 ∧
      (teach_echo 16 State.init ⟨'Q', 0o33, BAD⟩ 20516).give = 0 ∧
      min 6000 ((7 * 3500 + 2 * 20516 + 4) / 8) = 6000 ∧
      (teach 16 State.init 1 [0, 0, 0, 81] [5, 20516, 1]).final.map
        (fun p => (p.1, p.2.give)) = some (1, 0) ∧
      (teach_echo 32 State.init ⟨'Q', 0o33, BAD⟩ 2147483648).give = 3063 ∧
      min 6000 ((7 * 3500 + 2 * 2147483648 + 4) / 8) = 6000 := by
  decide

/-- C14 (amended): `give` starts at 3500; at the end of every presentation
(correct answer or timeout, measured time `t`) `give` becomes
`min(6000, weight(give, 2*t))` in `unsigned` arithmetic, which is
`min(6000, floor((7*give + 2*t + 4)/8))` whenever `7*give + 2*t + 4 < 65536`;
a completed drill leaves `give` at the value set at the end of its last
presentation; and `give ≤ 6000` holds in every reachable state, for every
sequence of measured times. -/
theorem give_bounded (w : Nat) (s : State) (x : Lt) (t : Nat) (hw : 16 ≤ w)
    (hr : Reach w s) :
    State.init.give = 3500 ∧ s.give ≤ 6000 ∧
      (teach_echo w s x t).give = min 6000 (weight w s.give (umul w 2 t)) ∧
      (7 * s.give + 2 * t + 4 < 65536 →
        (teach_echo w s x t).give = min 6000 ((7 * s.give + 2 * t + 4) / 8)) ∧
      (∀ lesson keys ticks sa m ta ka tk ret s1 ks ts,
        s.letter[lesson]? = some x →
        drill w s lesson keys ticks = DrillEnd.answered sa m ta ka tk →
        teach w s lesson keys ticks = TeachResult.done ret s1 ks ts →
        s1.give = min 6000 (weight w sa.give (umul w 2 ta))) := by
  have hecho : ∀ (a : State) (u : Nat),
      (teach_echo w a x u).give = min 6000 (weight w a.give (umul w 2 u)) := by
    intro a u
    unfold teach_echo
    dsimp only
    split_ifs <;> omega
  refine ⟨by decide, reach_give_le w s hr, hecho s t, ?_, ?_⟩
  · intro hfit
    have hp := two_pow_ge w hw
    rw [hecho s t]
    have h2 : umul w 2 t = 2 * t := Nat.mod_eq_of_lt (by omega)
    rw [h2, weight_eq w s.give (2 * t) hw hfit]
  · intro lesson keys ticks sa m ta ka tk ret s1 ks ts hx hd h
    rw [teach_eq_result w s lesson x keys ticks hx, hd] at h
    simp only [DrillEnd.result, teach_finish] at h
    cases hgr : grade w (teach_echo w sa x ta) lesson
        (if (DrillEnd.answered sa m ta ka tk).timeouts = 0 then GOOD else BAD) with
    | none => rw [hgr] at h; exact absurd h (by simp)
    | some sb =>
      rw [hgr] at h
      dsimp only at h
      cases hch : teach_check w sb with
      | none => rw [hch] at h; exact absurd h (by simp)
      | some sc =>
        rw [hch] at h
        simp only [TeachResult.done.injEq] at h
        obtain ⟨_, rfl, _, _⟩ := h
        rw [(teach_check_frame w sb sc hch).2, (grade_keeps_give w _ sb _ _ hgr).2]
        exact hecho sa ta

theorem give_bounded_witness :
    16 ≤ 16 ∧ Reach 16 State.init ∧
      (State.init.give = 3500 ∧ State.init.give ≤ 6000 ∧
        (teach_echo 16 State.init ⟨'Q', 0o33, BAD⟩ 1200).give
          = min 6000 (weight 16 State.init.give (umul 16 2 1200)) ∧
        (7 * State.init.give + 2 * 1200 + 4 < 65536 →
          (teach_echo 16 State.init ⟨'Q', 0o33, BAD⟩ 1200).give
            = min 6000 ((7 * State.init.give + 2 * 1200 + 4) / 8)) ∧
        (∀ lesson keys ticks sa m ta ka tk ret s1 ks ts,
          State.init.letter[lesson]? = some ⟨'Q', 0o33, BAD⟩ →
          drill 16 State.init lesson keys ticks = DrillEnd.answered sa m ta ka tk →
          teach 16 State.init lesson keys ticks = TeachResult.done ret s1 ks ts →
          s1.give = min 6000 (weight 16 sa.give (umul 16 2 ta)))) :=
  ⟨by decide, Reach.init,
    give_bounded 16 State.init ⟨'Q', 0o33, BAD⟩ 1200 (by decide) Reach.init⟩

/-- In a well-formed state `select` returns an active index. -/
theorem select_returns (s : State) (rand : Int) (hs : s.wf) :
    ∃ l reads, select s rand = some (l, reads) ∧ 1 ≤ l ∧ l ≤ s.num := by
  obtain ⟨hlen, h1, hmax, _⟩ := hs
  have hlt : s.num < s.letter.length := by omega
  obtain ⟨rd, hsum, _⟩ := select_sum_spec s hlt (s.num + 1) 0 [] (by omega) (by omega)
  have htot : 0 < total s := prefixSum_pos s s.num h1
  obtain ⟨i, rd2, hwalk, hi1, hi2, _⟩ :=
    select_walk_spec s s.num (Int.tmod rand (total s)) ([] ++ rd) h1 hlt
      (Int.tmod_lt_of_pos rand htot)
  refine ⟨i, ([] ++ rd) ++ rd2, ?_, hi1, hi2⟩
  simp only [prefixSum] at hsum
  simp only [select, hsum]
  rw [if_neg (by omega)]
  exact hwalk

/-- One completed drill graded `GOOD` returns, keeps the state well-formed,
gives the aggregate one `GOOD` update and does not lower `num`. -/
theorem completed_drill_step (w : Nat) (s : State) (rand : Int) (hw : 16 ≤ w) (hs : s.wf) :
    ∃ s1, completed_drill w s rand = some s1 ∧ s1.wf ∧
      errorOf s1 0 = (7 * errorOf s 0 + 4) / 8 ∧ s.num ≤ s1.num := by
  obtain ⟨l, reads, hsel, hl1, hl2⟩ := select_returns s rand hs
  obtain ⟨hlen, h1, hmax, herr⟩ := hs
  obtain ⟨sg, hg, ⟨hglen, hgerr⟩, hgnum, _, _, _, hg0, _, _⟩ :=
    grade_effect w s l GOOD hw ⟨hlen, herr⟩ hl1 (by omega) (by decide)
  obtain ⟨s2, hc, hcl, hyes, hno⟩ := teach_check_spec w sg hw hglen (by omega)
  have h0 : errorOf s2 0 = errorOf sg 0 := by
    unfold errorOf
    rw [hcl]
  have he := errorOf_le s herr 0
  refine ⟨s2, ?_, ⟨by rw [hcl]; exact hglen, ?_, ?_, by rw [hcl]; exact hgerr⟩, ?_, ?_⟩
  · simp only [completed_drill, hsel, hg]
    exact hc
  · by_cases hcond : sg.num < MAXNUM ∧ errorOf sg 0 ≤ 76 ∧
        ∀ i, 1 ≤ i → i ≤ sg.num → errorOf sg i ≤ 102
    · have := hyes hcond; omega
    · have := hno hcond; omega
  · by_cases hcond : sg.num < MAXNUM ∧ errorOf sg 0 ≤ 76 ∧
        ∀ i, 1 ≤ i → i ≤ sg.num → errorOf sg i ≤ 102
    · have := hyes hcond; omega
    · have := hno hcond; omega
  · rw [h0, hg0, weight_eq w _ GOOD hw (by simp only [GOOD]; omega)]
    simp only [GOOD, Nat.add_zero]
  · by_cases hcond : sg.num < MAXNUM ∧ errorOf sg 0 ≤ 76 ∧
        ∀ i, 1 ≤ i → i ≤ sg.num → errorOf sg i ≤ 102
    · have := hyes hcond; omega
    · have := hno hcond; omega

/-- Every sequence of completed drills graded `GOOD` returns; the aggregate
takes the values of successive `GOOD` updates and `num` never falls. -/
theorem completed_drills_run (w : Nat) (hw : 16 ≤ w) :
    ∀ (draws : List Int) (s : State), s.wf →
      ∃ states, completed_drills w s draws = some states ∧
        states.length = draws.length ∧
        states.map (fun t => errorOf t 0) = good_updates draws.length (errorOf s 0) ∧
        ∀ t ∈ states, s.num ≤ t.num := by
  intro draws
  induction draws with
  | nil =>
    intro s _
    exact ⟨[], rfl, rfl, rfl, by simp⟩
  | cons r rs ih =>
    intro s hs
    obtain ⟨s1, h1, hwf1, ha1, hn1⟩ := completed_drill_step w s r hw hs
    obtain ⟨l, hl, hlen, hag, hnum⟩ := ih s1 hwf1
    refine ⟨s1 :: l, ?_, by simp [hlen], ?_, ?_⟩
    · simp only [completed_drills, h1, hl]
    · simp only [List.map_cons, List.length_cons, good_updates, hag, ha1]
    · intro t ht
      rcases List.mem_cons.mp ht with rfl | ht
      · exact hn1
      · have := hnum t ht
        omega

set_option maxRecDepth 100000 in
/-- C16 (as stated) fails for draws that always choose the same symbol: with
every draw 0, `select` returns index 2 in each of the 20 drills, the error of
symbol 1 stays 255 and `num` is 2 after every drill, the last included. -/
theorem scenario_counterexample :
    State.allBad.num = 2 ∧ errorOf State.allBad 0 = 255 ∧
      (completed_drills 16 State.allBad (List.replicate 20 0)).map
        (fun l => l.map (fun t => (t.num, errorOf t 1)))
        = some (List.replicate 20 (2, 255)) := by
  decide

set_option maxRecDepth 100000 in
/-- C16 (amended): starting from `num = 2` with every error, the aggregate
included, at 255, for every sequence of 20 selector draws each of the 20
drills graded `GOOD` completes, the aggregate error strictly decreases at
each of them (255, 223, .., 18) and `num` never falls below 2; for draws that
alternate between the two active symbols `num` is 3 from the 14th drill on. -/
theorem scenario_twenty_drills (w : Nat) (draws : List Int) (hw : 16 ≤ w)
    (hlen : draws.length = 20) :
    (State.allBad.num = 2 ∧ State.allBad.letter.map Lt.error = List.replicate 37 255) ∧
      (∃ states, completed_drills w State.allBad draws = some states ∧
        states.length = 20 ∧
        states.map (fun t => errorOf t 0)
          = [223, 195, 171, 150, 131, 115, 101, 88, 77, 67, 59, 52, 46, 40, 35, 31, 27, 24,
              21, 18] ∧
        List.Chain (fun a b => b < a) 255 (states.map (fun t => errorOf t 0)) ∧
        ∀ t ∈ states, 2 ≤ t.num) ∧
      (completed_drills 16 State.allBad
          [0, 479, 0, 419, 0, 367, 0, 322, 0, 282, 0, 247, 0, 217, 459, 446, 435, 425, 410,
            398]).map (fun l => l.map State.num)
        = some [2, 2, 2, 2, 2, 2, 2, 2, 2, 2, 2, 2, 2, 3, 3, 3, 3, 3, 3, 3] := by
  refine ⟨by decide, ?_, by decide⟩
  obtain ⟨states, hrun, hl, hag, hnum⟩ := completed_drills_run w hw draws State.allBad (by decide)
  have h255 : errorOf State.allBad 0 = 255 := by decide
  rw [hlen, h255] at hag
  have hlist : good_updates 20 255
      = [223, 195, 171, 150, 131, 115, 101, 88, 77, 67, 59, 52, 46, 40, 35, 31, 27, 24,
          21, 18] := by decide
  rw [hlist] at hag
  refine ⟨states, hrun, by rw [hl, hlen], hag, ?_, ?_⟩
  · rw [hag]
    simp only [List.chain_cons, List.Chain.nil, and_true]
    omega
  · intro t ht
    have := hnum t ht
    have h2 : State.allBad.num = 2 := by decide
    omega

set_option maxRecDepth 100000 in
theorem scenario_twenty_drills_witness :
    16 ≤ 16 ∧ (List.replicate 20 (7 : Int)).length = 20 ∧
      ((State.allBad.num = 2 ∧ State.allBad.letter.map Lt.error = List.replicate 37 255) ∧
        (∃ states, completed_drills 16 State.allBad (List.replicate 20 (7 : Int)) = some states ∧
          states.length = 20 ∧
          states.map (fun t => errorOf t 0)
            = [223, 195, 171, 150, 131, 115, 101, 88, 77, 67, 59, 52, 46, 40, 35, 31, 27, 24,
                21, 18] ∧
          List.Chain (fun a b => b < a) 255 (states.map (fun t => errorOf t 0)) ∧
          ∀ t ∈ states, 2 ≤ t.num) ∧
        (completed_drills 16 State.allBad
            [0, 479, 0, 419, 0, 367, 0, 322, 0, 282, 0, 247, 0, 217, 459, 446, 435, 425, 410,
              398]).map (fun l => l.map State.num)
          = some [2, 2, 2, 2, 2, 2, 2, 2, 2, 2, 2, 2, 2, 3, 3, 3, 3, 3, 3, 3]) :=
  ⟨by decide, by decide,
    scenario_twenty_drills 16 (List.replicate 20 (7 : Int)) (by decide) (by decide)⟩

/-! ### Which draws reach which index -/

end Morse
